import Mathlib

/-!
Verification of the incremental document indexing and retrieval engine of the
LLM_RAG repository (backend/app of project-RAG-LLM).

The development shallowly embeds the Python services that the verified
properties talk about:

* `SyncService` (`backend/app/services/sync_service.py`): local file-state
  scanning is modelled by a `Filesystem` value (the oracle of what `os.walk`
  plus the loader/splitter would produce for each file), `_calculate_diff`,
  `_delete_files`, `_process_and_upsert_files` and `run` are translated
  function by function.
* `DocumentIngestService.process_document`
  (`backend/app/services/document_ingest_service.py`): chunk ids are
  `sha1(f"{mtime}|{size}|{idx}")`; SHA-1 is implemented concretely below over
  `Nat` words reduced modulo `2 ^ 32`.
* `VectorStoreRepository` (`backend/app/services/vector_store_repository.py`):
  the Chroma collection is a list of records; `upsert`, `get`/`delete` by
  metadata filter and the filtered nearest-neighbour `query` are modelled
  directly.  A boolean `storeRaises` parameter models an underlying store
  failure at the point the collection is touched, so that "the call reached
  the store" is observable in theorems.
* `EmbeddingService.embed_texts` (`backend/app/services/embedding_service.py`)
  with its whitespace cleaning, blank filtering and batch splitting; the
  remote provider itself is an abstract function `embedOne : String → Vec`.
* the retrieval paths of `rag_agent._create_retriever_with_filter` and
  `RagPipeline.query` (`backend/app/core/`).

Modelling conventions: file modification times and sizes are naturals (the
Python values are compared only for equality and printed into the id string;
the decimal printer used here is proved injective, as the Python float/int
formatting is); embedding vectors are opaque payloads (`List Int`); metadata
keeps the fields the verified properties read (source, file_mtime, file_size,
chunk_id, session_id); fallible operations return `Except String`.
-/

namespace RagSync

/-! ### Decimal printing of naturals, as Python str() does for the id string -/

/-- One decimal digit character. -/
def decChar : Nat → Char
  | 0 => '0'
  | 1 => '1'
  | 2 => '2'
  | 3 => '3'
  | 4 => '4'
  | 5 => '5'
  | 6 => '6'
  | 7 => '7'
  | 8 => '8'
  | 9 => '9'
  | _ => '?'

/-- Numeric value of a decimal digit character. -/
def decVal (c : Char) : Nat := c.toNat - 48

/-- Decimal digits, most significant first, with explicit recursion fuel so
that the kernel can evaluate the definition on literals. -/
def natCharsAux : Nat → Nat → List Char
  | 0, _ => []
  | fuel + 1, n =>
    if n < 10 then [decChar n] else natCharsAux fuel (n / 10) ++ [decChar (n % 10)]

/-- Decimal digit list of a natural, most significant digit first. -/
def natChars (n : Nat) : List Char := natCharsAux (n + 1) n

/-- Decimal rendering of a natural number, as Python formats nonnegative
integers into f-strings. -/
def natRepr (n : Nat) : String := ⟨natChars n⟩

/-- Decode a digit list back to a natural (left inverse of `natChars`). -/
def decNum (l : List Char) : Nat := l.foldl (fun a c => a * 10 + decVal c) 0

theorem decVal_decChar {d : Nat} (h : d < 10) : decVal (decChar d) = d := by
  interval_cases d <;> rfl

theorem decChar_ne_pipe {d : Nat} (h : d < 10) : decChar d ≠ '|' := by
  interval_cases d <;> decide

theorem natChars_ne_nil (n : Nat) : natChars n ≠ [] := by
  unfold natChars natCharsAux
  split <;> simp

theorem natCharsAux_no_pipe :
    ∀ fuel n, n < fuel → ∀ c ∈ natCharsAux fuel n, c ≠ '|' := by
  intro fuel
  induction fuel with
  | zero => omega
  | succ f ih =>
    intro n hn c hc
    unfold natCharsAux at hc
    split at hc
    · next h =>
      simp only [List.mem_singleton] at hc
      subst hc
      exact decChar_ne_pipe h
    · next h =>
      rcases List.mem_append.1 hc with h1 | h1
      · have hd : n / 10 < n := Nat.div_lt_self (by omega) (by omega)
        exact ih (n / 10) (by omega) c h1
      · simp only [List.mem_singleton] at h1
        subst h1
        exact decChar_ne_pipe (Nat.mod_lt _ (by omega))

theorem mem_natChars_ne_pipe (n : Nat) : ∀ c ∈ natChars n, c ≠ '|' :=
  natCharsAux_no_pipe (n + 1) n (Nat.lt_succ_self n)

theorem foldl_natCharsAux :
    ∀ fuel n, n < fuel → ∀ a : Nat,
      List.foldl (fun a c => a * 10 + decVal c) a (natCharsAux fuel n)
        = a * 10 ^ (natCharsAux fuel n).length + n := by
  intro fuel
  induction fuel with
  | zero => omega
  | succ f ih =>
    intro n hn a
    unfold natCharsAux
    split
    · next h =>
      simp [decVal_decChar h]
    · next h =>
      have hd : n / 10 < n := Nat.div_lt_self (by omega) (by omega)
      rw [List.foldl_append, List.length_append, ih (n / 10) (by omega) a]
      simp only [List.foldl_cons, List.foldl_nil, List.length_singleton]
      rw [decVal_decChar (Nat.mod_lt _ (by omega))]
      rw [pow_succ, ← Nat.mul_assoc]
      omega

theorem decNum_natChars (n : Nat) : decNum (natChars n) = n := by
  have h := foldl_natCharsAux (n + 1) n (Nat.lt_succ_self n) 0
  simpa [decNum, natChars] using h

theorem natChars_injective {m n : Nat} (h : natChars m = natChars n) : m = n := by
  have hm := decNum_natChars m
  rw [h, decNum_natChars] at hm
  omega

/-- Splitting at a separator character is unambiguous when neither prefix
contains the separator. -/
theorem sep_split_inj :
    ∀ (xs xs' ys ys' : List Char), (∀ c ∈ xs, c ≠ '|') → (∀ c ∈ xs', c ≠ '|') →
      xs ++ '|' :: ys = xs' ++ '|' :: ys' → xs = xs' ∧ ys = ys' := by
  intro xs
  induction xs with
  | nil =>
    intro xs' ys ys' _ hx' heq
    cases xs' with
    | nil => simpa using heq
    | cons c t =>
      simp only [List.nil_append, List.cons_append, List.cons.injEq] at heq
      exact absurd heq.1.symm (hx' c (by simp))
  | cons c t ih =>
    intro xs' ys ys' hx hx' heq
    cases xs' with
    | nil =>
      simp only [List.cons_append, List.nil_append, List.cons.injEq] at heq
      exact absurd heq.1 (hx c (by simp))
    | cons c' t' =>
      simp only [List.cons_append, List.cons.injEq] at heq
      obtain ⟨hc, ht⟩ := heq
      obtain ⟨h1, h2⟩ := ih t' ys ys' (fun d hd => hx d (by simp [hd]))
        (fun d hd => hx' d (by simp [hd])) ht
      exact ⟨by rw [hc, h1], h2⟩

/-! ### SHA-1 (`hashlib.sha1(...).hexdigest()`), over `Nat` words mod `2 ^ 32` -/

/-- Truncation to a 32-bit word. -/
def w32 (n : Nat) : Nat := n % 4294967296

/-- Left rotation of a 32-bit word. -/
def rotl32 (s x : Nat) : Nat := w32 ((x <<< s) ||| (x >>> (32 - s)))

/-- UTF-8 encoding of one character (`str.encode("utf-8")`). -/
def utf8Bytes (c : Char) : List Nat :=
  let n := c.toNat
  if n < 128 then [n]
  else if n < 2048 then [192 + n / 64, 128 + n % 64]
  else if n < 65536 then [224 + n / 4096, 128 + n / 64 % 64, 128 + n % 64]
  else [240 + n / 262144, 128 + n / 4096 % 64, 128 + n / 64 % 64, 128 + n % 64]

/-- UTF-8 byte stream of a string. -/
def strBytes (s : String) : List Nat := (s.data.map utf8Bytes).flatten

/-- Batch splitting with explicit recursion fuel (kernel-evaluable). -/
def chunksOfAux {α : Type} (k : Nat) : Nat → List α → List (List α)
  | 0, _ => []
  | _ + 1, [] => []
  | fuel + 1, a :: t => ((a :: t).take k) :: chunksOfAux k fuel ((a :: t).drop k)

/-- Split a list into consecutive batches of size `k` (the last one may be
shorter).  Used both by SHA-1 block processing and by the embedding batcher. -/
def chunksOf {α : Type} (k : Nat) (l : List α) : List (List α) :=
  chunksOfAux k l.length l

/-- Big-endian word from a byte list. -/
def beWord (bs : List Nat) : Nat := bs.foldl (fun a b => a * 256 + b) 0

/-- `k` big-endian bytes of `n`. -/
def beBytes (k n : Nat) : List Nat := (List.range k).map (fun i => n / 256 ^ (k - 1 - i) % 256)

/-- SHA-1 padding: `0x80`, zeros to 56 mod 64, then the 64-bit bit length. -/
def sha1Pad (msg : List Nat) : List Nat :=
  let l := msg.length
  let zeros := (120 - (l + 1) % 64) % 64
  msg ++ 128 :: (List.replicate zeros 0 ++ beBytes 8 (l * 8 % 18446744073709551616))

/-- SHA-1 round function. -/
def sha1F (t b c d : Nat) : Nat :=
  if t < 20 then (b &&& c) ||| ((b ^^^ 4294967295) &&& d)
  else if t < 40 then b ^^^ c ^^^ d
  else if t < 60 then (b &&& c) ||| (b &&& d) ||| (c &&& d)
  else b ^^^ c ^^^ d

/-- SHA-1 round constants. -/
def sha1K (t : Nat) : Nat :=
  if t < 20 then 1518500249
  else if t < 40 then 1859775393
  else if t < 60 then 2400959708
  else 3395469782

/-- Message schedule: expand 16 words to 80. -/
def sha1Schedule (ws : List Nat) : List Nat :=
  ((List.range 64).foldl
    (fun r _ => rotl32 1 (r.getD 2 0 ^^^ r.getD 7 0 ^^^ r.getD 13 0 ^^^ r.getD 15 0) :: r)
    ws.reverse).reverse

/-- One SHA-1 block compression step. -/
def sha1Compress (h : Nat × Nat × Nat × Nat × Nat) (block : List Nat) :
    Nat × Nat × Nat × Nat × Nat :=
  let st := ((List.range 80).zip (sha1Schedule block)).foldl
    (fun (st : Nat × Nat × Nat × Nat × Nat) (tw : Nat × Nat) =>
      (w32 (rotl32 5 st.1 + sha1F tw.1 st.2.1 st.2.2.1 st.2.2.2.1 + st.2.2.2.2 +
            sha1K tw.1 + tw.2),
        st.1, rotl32 30 st.2.1, st.2.2.1, st.2.2.2.1))
    h
  (w32 (h.1 + st.1), w32 (h.2.1 + st.2.1), w32 (h.2.2.1 + st.2.2.1),
    w32 (h.2.2.2.1 + st.2.2.2.1), w32 (h.2.2.2.2 + st.2.2.2.2))

/-- The five state words of the SHA-1 digest of a byte stream. -/
def sha1Words (msg : List Nat) : List Nat :=
  let blocks := (chunksOf 64 (sha1Pad msg)).map (fun b => (chunksOf 4 b).map beWord)
  let h := blocks.foldl sha1Compress (1732584193, 4023233417, 2562383102, 271733878, 3285377520)
  [h.1, h.2.1, h.2.2.1, h.2.2.2.1, h.2.2.2.2]

/-- Lower-case hex digit. -/
def hexChar (d : Nat) : Char :=
  if d < 10 then decChar d
  else if d = 10 then 'a' else if d = 11 then 'b' else if d = 12 then 'c'
  else if d = 13 then 'd' else if d = 14 then 'e' else 'f'

/-- Eight hex characters of a 32-bit word. -/
def wordHex (w : Nat) : List Char := (List.range 8).map (fun i => hexChar (w / 16 ^ (7 - i) % 16))

/-- `hashlib.sha1(s.encode("utf-8")).hexdigest()`. -/
def sha1Hex (s : String) : String := ⟨((sha1Words (strBytes s)).map wordHex).flatten⟩

/-! ### Data model -/

/-- The (mtime, size) pair the scanner and the diff engine compare
(`sync_service.py:_get_local_file_state`). -/
structure FileStat where
  mtime : Nat
  size : Nat
deriving DecidableEq, Repr

/-- An embedding vector; its numeric content is opaque to the verified
properties, only list length and identity matter. -/
abbrev Vec := List Int

/-- The chunk metadata fields that the verified behaviour reads
(`document_ingest_service.py:141-153`; the remaining fields — file_name,
source_type, chunk_hash, chunk_size, embedding_model, ingested_at — are
written but never read by the diff, filter or id logic). -/
structure Metadata where
  source : String
  fileMtime : Nat
  fileSize : Nat
  chunkIndex : Nat
  sessionId : String
deriving DecidableEq, Repr

/-- One stored collection record `(id, document, embedding, metadata)`. -/
structure Record where
  id : String
  document : String
  embedding : Vec
  metadata : Metadata
deriving DecidableEq, Repr

/-- The Chroma collection contents. -/
abbrev Store := List Record

/-- One processed chunk as produced by `process_document`. -/
structure Chunk where
  id : String
  content : String
  metadata : Metadata
deriving DecidableEq, Repr

/-- A scanned filesystem: relative path, stat, and the chunk contents that
`load_document` followed by `split_documents` would produce for the file;
`none` models a loader failure raising inside `process_document`.  The
loader/splitter pair is deterministic for a fixed on-disk file, hence an
oracle value per file. -/
abbrev FsEntry := String × FileStat × Option (List String)

/-- The scanned source tree (`_get_local_file_state` output plus the loader
oracle). -/
abbrev Filesystem := List FsEntry

/-! ### Association-list maps (Python dicts keyed by path) -/

/-- First-match lookup (a Python dict holds each key once). -/
def lookupS {α : Type} : List (String × α) → String → Option α
  | [], _ => none
  | (k, v) :: t, key => if k = key then some v else lookupS t key

/-- Key list of a map. -/
def keysS {α : Type} (m : List (String × α)) : List String := m.map Prod.fst

/-- Python dict assignment `m[k] = v`: overwrite in place or append. -/
def insertOv {α : Type} : List (String × α) → String → α → List (String × α)
  | [], k, v => [(k, v)]
  | (k1, v1) :: t, k, v =>
    if k1 = k then (k1, v) :: t else (k1, v1) :: insertOv t k v

/-! ### Chunk identity and ingestion (`document_ingest_service.py`) -/

/-- The hash input `f"{file_mtime}|{file_size}|{idx}"`
(`document_ingest_service.py:137`). -/
def idSource (mtime size idx : Nat) : String :=
  natRepr mtime ++ "|" ++ natRepr size ++ "|" ++ natRepr idx

/-- The deterministic chunk id
(`document_ingest_service.py:138`, `hashlib.sha1(id_source).hexdigest()`). -/
def chunkId (mtime size idx : Nat) : String := sha1Hex (idSource mtime size idx)

/-- `DocumentIngestService.process_document` (`document_ingest_service.py:112-162`)
applied to the already-loaded-and-split chunk contents of one file. -/
def processDocument (stat : FileStat) (relPath : String) (contents : List String)
    (sessionId : String) : List Chunk :=
  contents.enum.map fun p =>
    { id := chunkId stat.mtime stat.size p.1
      content := p.2
      metadata :=
        { source := relPath
          fileMtime := stat.mtime
          fileSize := stat.size
          chunkIndex := p.1
          sessionId := sessionId } }

/-! ### Vector repository (`vector_store_repository.py`) -/

/-- Metadata field access used by Chroma `where` filters (only the string
fields `source` and `session_id` are ever filtered on in this codebase). -/
def metaField (md : Metadata) (f : String) : Option String :=
  if f = "source" then some md.source
  else if f = "session_id" then some md.sessionId
  else none

/-- The Chroma `where` filters this codebase builds: a field-equality clause
or a two-clause `$or` (`rag_agent.py:80-86`, `vector_store_repository.py:137`). -/
inductive WhereFilter where
  | eqF (field value : String)
  | orF (left right : WhereFilter)

/-- Chroma metadata filter semantics. -/
def matchesWhere : WhereFilter → Metadata → Bool
  | .eqF f v, md => metaField md f == some v
  | .orF l r, md => matchesWhere l md || matchesWhere r md

/-- Chroma upsert of a single record: replace the record with the same id,
or append. -/
def upsertOne (store : Store) (r : Record) : Store :=
  match store with
  | [] => [r]
  | r1 :: t => if r1.id = r.id then r :: t else r1 :: upsertOne t r

/-- Chroma batch upsert applied record by record. -/
def applyUpsert (store : Store) (rs : List Record) : Store := rs.foldl upsertOne store

/-- Zip the four parallel upsert lists into records. -/
def zipRecords : List String → List String → List Vec → List Metadata → List Record
  | i :: is, d :: ds, e :: es, m :: ms => ⟨i, d, e, m⟩ :: zipRecords is ds es ms
  | _, _, _, _ => []

/-- The Chroma `collection.upsert` call: `storeRaises` models an underlying
store failure; the Chroma client itself rejects parallel lists of unequal
length before writing. -/
def collectionUpsert (storeRaises : Bool) (store : Store) (ids docs : List String)
    (embs : List Vec) (metas : List Metadata) : Except String Store :=
  if storeRaises then .error "store_failure"
  else if ids.length = docs.length ∧ ids.length = embs.length ∧ ids.length = metas.length then
    .ok (applyUpsert store (zipRecords ids docs embs metas))
  else .error "chroma_unequal_lengths"

/-- `VectorStoreRepository.upsert_batch` (`vector_store_repository.py:82-120`):
an empty id list is logged and silently skipped; otherwise the four lists are
passed to the collection unvalidated, and a collection exception is re-raised. -/
def upsertBatch (storeRaises : Bool) (store : Store) (ids docs : List String)
    (embs : List Vec) (metas : List Metadata) : Except String Store :=
  if ids.isEmpty then .ok store
  else collectionUpsert storeRaises store ids docs embs metas

/-- `VectorStoreRepository.delete_by_source` (`vector_store_repository.py:122-153`):
collect the ids whose metadata source equals `source`, return 0 if none,
else delete them and return the count. -/
def deleteBySource (store : Store) (source : String) : Store × Nat :=
  let toDel := store.filter (fun r => r.metadata.source == source)
  if toDel.isEmpty then (store, 0)
  else (store.filter (fun r => !(r.metadata.source == source)), toDel.length)

/-- First stored record with the given id. -/
def findById (store : Store) (i : String) : Option Record :=
  store.find? (fun r => r.id == i)

/-- One step of the `get_indexed_file_state` scan
(`vector_store_repository.py:227-234`): metadata with a falsy source is
skipped (the modelled metadata always carries mtime and size). -/
def gifsStep (m : List (String × FileStat)) (r : Record) : List (String × FileStat) :=
  if r.metadata.source = "" then m
  else insertOv m r.metadata.source ⟨r.metadata.fileMtime, r.metadata.fileSize⟩

/-- `VectorStoreRepository.get_indexed_file_state`
(`vector_store_repository.py:199-241`): fold all stored metadata into a
path → (mtime, size) map, later records overwriting earlier ones. -/
def getIndexedFileState (store : Store) : List (String × FileStat) :=
  store.foldl gifsStep []

/-- Squared L2 distance, the default Chroma metric; its exact form is
irrelevant to the verified properties, only that ranking is by some
distance. -/
def dist2 (v w : Vec) : Nat :=
  ((v.zip w).map (fun p => ((p.1 - p.2) * (p.1 - p.2)).toNat)).sum

/-- One formatted retrieval result (`vector_store_repository.py:290-299`);
the real code also attaches `similarity = exp(-distance)`, modelled by the
real-valued `similarity` function below. -/
structure QueryResult where
  content : String
  metadata : Metadata
  distance : Nat
deriving DecidableEq, Repr

/-- Insert into a distance-ascending list. -/
def insertRanked (x : Nat × Record) : List (Nat × Record) → List (Nat × Record)
  | [] => [x]
  | y :: t => if x.1 ≤ y.1 then x :: y :: t else y :: insertRanked x t

/-- Sort candidate records by ascending distance (the vector engine's
nearest-neighbour ordering). -/
def rankSort : List (Nat × Record) → List (Nat × Record)
  | [] => []
  | x :: t => insertRanked x (rankSort t)

/-- `VectorStoreRepository.query_similar` (`vector_store_repository.py:243-306`):
validation of the empty vector and non-positive `top_k` happens before the
collection is touched; then the collection returns the `top_k` nearest
candidates among those matching the optional `where` filter. -/
def querySimilar (storeRaises : Bool) (queryVector : Vec) (topK : Int)
    (whereFilter : Option WhereFilter) (store : Store) : Except String (List QueryResult) :=
  if queryVector = [] then .error "validation_empty_query_vector"
  else if topK ≤ 0 then .error "validation_nonpositive_top_k"
  else if storeRaises then .error "store_failure"
  else
    let cands := match whereFilter with
      | none => store
      | some w => store.filter (fun r => matchesWhere w r.metadata)
    let ranked := rankSort (cands.map (fun r => (dist2 queryVector r.embedding, r)))
    .ok ((ranked.take topK.toNat).map (fun p => ⟨p.2.document, p.2.metadata, p.1⟩))

/-- The distance → similarity transform `math.exp(-distance)`
(`vector_store_repository.py:295`), over the reals. -/
noncomputable def similarity (d : ℝ) : ℝ := Real.exp (-d)

/-! ### Retrieval paths (`rag_agent.py`, `rag_pipeline.py`) -/

/-- `config.RAG_TOP_K` (`config.py:55`). -/
def RAG_TOP_K : Int := 3

/-- The scope filter built by `_create_retriever_with_filter`
(`rag_agent.py:78-86`): session_id is "system" or the current session. -/
def scopeFilter (sessionId : String) : WhereFilter :=
  .orF (.eqF "session_id" "system") (.eqF "session_id" sessionId)

/-- A retrieval through the agent retriever (`rag_agent.py:57-95`): a
similarity query restricted by `scopeFilter`. -/
def retrieverQuery (sessionId : String) (topK : Int) (queryVector : Vec)
    (store : Store) : Except String (List QueryResult) :=
  querySimilar false queryVector topK (some (scopeFilter sessionId)) store

/-- The retrieval step of `RagPipeline.query` (`rag_pipeline.py:167-170`):
`query_similar(query_vector, top_k=config.RAG_TOP_K)` — no `where_filter`
argument is passed. -/
def ragPipelineRetrieve (queryVector : Vec) (store : Store) :
    Except String (List QueryResult) :=
  querySimilar false queryVector RAG_TOP_K none store

/-! ### Embedding service (`embedding_service.py`) -/

/-- `config.EMBEDDING_BATCH_SIZE` (`config.py:36`). -/
def EMBEDDING_BATCH_SIZE : Nat := 10

/-- Group a character list into maximal non-whitespace runs (empty runs at
separators are produced and filtered below). -/
def wordRuns (l : List Char) : List (List Char) :=
  l.foldr
    (fun c acc =>
      if c.isWhitespace then [] :: acc
      else
        match acc with
        | [] => [[c]]
        | w :: ws => (c :: w) :: ws)
    []

/-- Python `text.split()` on the character level: maximal non-whitespace
runs, empty runs discarded. -/
def splitWordsC (l : List Char) : List (List Char) :=
  (wordRuns l).filter (fun w => !w.isEmpty)

/-- Python `text.split()`: maximal non-whitespace runs. -/
def splitWords (s : String) : List String := (splitWordsC s.data).map (fun w => ⟨w⟩)

/-- Falsiness of `text and text.strip()`: the text is empty or whitespace-only. -/
def isBlank (s : String) : Bool := (splitWordsC s.data).isEmpty

/-- Join with single spaces. -/
def joinSpace : List (List Char) → List Char
  | [] => []
  | [w] => w
  | w :: ws => w ++ ' ' :: joinSpace ws

/-- `" ".join(text.split())`: whitespace normalisation. -/
def cleanText (s : String) : String := ⟨joinSpace (splitWordsC s.data)⟩

/-- One provider batch (`embedding_service.py:117-137`): keep the texts that
are truthy after stripping, normalise their whitespace, raise if none
remain, then embed each survivor.  The remote provider is the abstract
`embedOne`. -/
def embedBatch (embedOne : String → Vec) (texts : List String) : Except String (List Vec) :=
  let cleaned := (texts.filter (fun t => !(isBlank t))).map cleanText
  if cleaned.isEmpty then .error "no_valid_texts"
  else .ok (cleaned.map embedOne)

/-- Accumulate one provider batch into the running vector list, propagating
the first error (`_embed_texts_in_batches`, `embedding_service.py:154-163`). -/
def embedFoldStep (embedOne : String → Vec) (acc : Except String (List Vec))
    (batch : List String) : Except String (List Vec) :=
  match acc, embedBatch embedOne batch with
  | .ok vs, .ok ws => .ok (vs ++ ws)
  | .ok _, .error e => .error e
  | .error e, _ => .error e

/-- `EmbeddingService.embed_texts` (`embedding_service.py:95-163`): reject an
empty list, then process the input in provider batches of
`EMBEDDING_BATCH_SIZE`, concatenating the per-batch vectors (a list of at
most one batch is processed as the single batch it is). -/
def embedTexts (embedOne : String → Vec) (texts : List String) : Except String (List Vec) :=
  if texts.isEmpty then .error "empty_text_list"
  else (chunksOf EMBEDDING_BATCH_SIZE texts).foldl (embedFoldStep embedOne) (.ok [])

/-! ### Sync service (`sync_service.py`) -/

/-- The scanner output map (`_get_local_file_state`): path → (mtime, size). -/
def localState (fs : Filesystem) : List (String × FileStat) :=
  fs.map (fun e => (e.1, e.2.1))

/-- The three diff lists (`sync_service.py:130-146`). -/
structure DiffResult where
  added : List String
  updated : List String
  deleted : List String
deriving DecidableEq, Repr

/-- The mtime/size comparison of `_calculate_diff` for a path present in
both maps. -/
def statDiffers (localSt dbSt : List (String × FileStat)) (p : String) : Bool :=
  match lookupS localSt p, lookupS dbSt p with
  | some a, some b => decide (a.mtime ≠ b.mtime) || decide (a.size ≠ b.size)
  | _, _ => false

/-- `SyncService._calculate_diff` (`sync_service.py:130-146`). -/
def calculateDiff (localSt dbSt : List (String × FileStat)) : DiffResult :=
  let localFiles := keysS localSt
  let dbFiles := keysS dbSt
  { added := localFiles.filter (fun p => !(decide (p ∈ dbFiles)))
    updated := (localFiles.filter (fun p => decide (p ∈ dbFiles))).filter
      (statDiffers localSt dbSt)
    deleted := dbFiles.filter (fun p => !(decide (p ∈ localFiles))) }

/-- `SyncService._delete_files` (`sync_service.py:148-161`): delete each
path's chunks by source, accumulating the deleted count. -/
def deleteFiles (store : Store) (paths : List String) : Store × Nat :=
  paths.foldl
    (fun acc p =>
      let d := deleteBySource acc.1 p
      (d.1, acc.2 + d.2))
    (store, 0)

/-- The chunks contributed by one path of the processing loop
(`sync_service.py:177-186`): a missing or failing file is caught and
contributes nothing. -/
def chunksFor (fs : Filesystem) (sessionId p : String) : List Chunk :=
  match lookupS fs p with
  | some (stat, some contents) => processDocument stat p contents sessionId
  | _ => []

/-- The accumulated `all_chunks_to_upsert` list (`sync_service.py:176-186`). -/
def planChunks (fs : Filesystem) (toProcess : List String) (sessionId : String) : List Chunk :=
  toProcess.foldl (fun acc p => acc ++ chunksFor fs sessionId p) []

/-- Whether the per-file load/chunk step succeeds for `p` (the file exists
and its loader does not raise). -/
def fsOk (fs : Filesystem) (p : String) : Bool :=
  match lookupS fs p with
  | some (_, some _) => true
  | _ => false

/-- `SyncService._process_and_upsert_files` (`sync_service.py:163-211`):
collect chunks with per-file failure isolation, embed them in one batched
call (an embedding failure propagates), then upsert; an upsert failure is
caught, logged and reported as 0 chunks added. -/
def processAndUpsertFiles (embedOne : String → Vec) (storeRaises : Bool) (fs : Filesystem)
    (store : Store) (filePaths : List String) (sessionId : String) :
    Except String (Store × Nat) :=
  if filePaths.isEmpty then .ok (store, 0)
  else
    let chunks := planChunks fs filePaths sessionId
    if chunks.isEmpty then .ok (store, 0)
    else
      match embedTexts embedOne (chunks.map Chunk.content) with
      | .error e => .error e
      | .ok embs =>
        match upsertBatch storeRaises store (chunks.map Chunk.id) (chunks.map Chunk.content)
            embs (chunks.map Chunk.metadata) with
        | .ok st => .ok (st, (chunks.map Chunk.id).length)
        | .error _ => .ok (store, 0)

/-- The record that `_process_and_upsert_files` assembles for one chunk:
the chunk's id, content and metadata with the embedding the batched
`embed_texts` call produced for its (whitespace-normalised) content. -/
def recordOf (embedOne : String → Vec) (c : Chunk) : Record :=
  ⟨c.id, c.content, embedOne (cleanText c.content), c.metadata⟩

/-- The summary dictionary returned by `SyncService.run`
(`sync_service.py:97-103`). -/
structure Summary where
  filesAdded : Nat
  filesUpdated : Nat
  filesDeleted : Nat
  chunksAdded : Nat
  chunksDeleted : Nat
deriving DecidableEq, Repr

/-- `SyncService.run` (`sync_service.py:60-106`): scan, diff, delete the
deleted and updated paths, process and upsert added plus updated paths,
return the summary. -/
def syncRun (embedOne : String → Vec) (storeRaises : Bool) (fs : Filesystem) (store : Store)
    (sessionId : String) : Except String (Summary × Store) :=
  let localSt := localState fs
  let dbSt := getIndexedFileState store
  let diff := calculateDiff localSt dbSt
  let del1 := deleteFiles store diff.deleted
  let del2 := deleteFiles del1.1 diff.updated
  match processAndUpsertFiles embedOne storeRaises fs del2.1 (diff.added ++ diff.updated)
      sessionId with
  | .error e => .error e
  | .ok res => .ok
      ({ filesAdded := diff.added.length
         filesUpdated := diff.updated.length
         filesDeleted := diff.deleted.length
         chunksAdded := res.2
         chunksDeleted := del1.2 + del2.2 }, res.1)

/-! ### Association-list lemmas -/

theorem lookupS_isSome_iff {α : Type} (m : List (String × α)) (p : String) :
    (lookupS m p).isSome ↔ p ∈ keysS m := by
  induction m with
  | nil => simp [lookupS, keysS]
  | cons e t ih =>
    obtain ⟨k, v⟩ := e
    by_cases h : k = p
    · subst h
      simp [lookupS, keysS]
    · simp only [lookupS, if_neg h, keysS, List.map_cons, List.mem_cons]
      rw [ih]
      simp [keysS, Ne.symm h]

theorem mem_keysS_of_lookupS {α : Type} {m : List (String × α)} {p : String} {v : α}
    (h : lookupS m p = some v) : p ∈ keysS m := by
  rw [← lookupS_isSome_iff, h]
  rfl

theorem lookupS_eq_none_of_not_mem {α : Type} {m : List (String × α)} {p : String}
    (h : p ∉ keysS m) : lookupS m p = none := by
  cases hl : lookupS m p with
  | none => rfl
  | some v => exact absurd (mem_keysS_of_lookupS hl) h

theorem exists_lookupS_of_mem_keysS {α : Type} {m : List (String × α)} {p : String}
    (h : p ∈ keysS m) : ∃ v, lookupS m p = some v := by
  have h1 := (lookupS_isSome_iff m p).2 h
  cases hl : lookupS m p with
  | none => rw [hl] at h1; exact absurd h1 (by simp)
  | some v => exact ⟨v, rfl⟩

/-! ### Diff-engine lemmas -/

theorem mem_added_iff (ls ds : List (String × FileStat)) (p : String) :
    p ∈ (calculateDiff ls ds).added ↔ p ∈ keysS ls ∧ p ∉ keysS ds := by
  simp [calculateDiff, List.mem_filter]

theorem mem_deleted_iff (ls ds : List (String × FileStat)) (p : String) :
    p ∈ (calculateDiff ls ds).deleted ↔ p ∈ keysS ds ∧ p ∉ keysS ls := by
  simp [calculateDiff, List.mem_filter]

theorem statDiffers_iff (ls ds : List (String × FileStat)) (p : String) :
    statDiffers ls ds p = true ↔
      ∃ a b, lookupS ls p = some a ∧ lookupS ds p = some b ∧
        (a.mtime ≠ b.mtime ∨ a.size ≠ b.size) := by
  unfold statDiffers
  cases hl : lookupS ls p with
  | none => simp [hl]
  | some a =>
    cases hd : lookupS ds p with
    | none => simp [hl, hd]
    | some b => simp [hl, hd]

theorem mem_updated_iff (ls ds : List (String × FileStat)) (p : String) :
    p ∈ (calculateDiff ls ds).updated ↔
      p ∈ keysS ls ∧ p ∈ keysS ds ∧ statDiffers ls ds p = true := by
  simp only [calculateDiff, List.mem_filter, decide_eq_true_eq]
  tauto

/-- C1: `_calculate_diff` is a pure function of the two state maps: `added`
is exactly the local paths absent from the indexed state, `deleted` exactly
the indexed paths absent from the local state, `updated` exactly the paths
present in both whose mtime or size differs; the three lists are pairwise
disjoint, and a path present in both with identical (mtime, size) appears in
none of them. -/
theorem C1_calculateDiff_spec (ls ds : List (String × FileStat)) :
    (∀ p, p ∈ (calculateDiff ls ds).added ↔ p ∈ keysS ls ∧ p ∉ keysS ds) ∧
    (∀ p, p ∈ (calculateDiff ls ds).deleted ↔ p ∈ keysS ds ∧ p ∉ keysS ls) ∧
    (∀ p, p ∈ (calculateDiff ls ds).updated ↔
      ∃ a b, lookupS ls p = some a ∧ lookupS ds p = some b ∧
        (a.mtime ≠ b.mtime ∨ a.size ≠ b.size)) ∧
    (∀ p, ¬(p ∈ (calculateDiff ls ds).added ∧ p ∈ (calculateDiff ls ds).updated)) ∧
    (∀ p, ¬(p ∈ (calculateDiff ls ds).added ∧ p ∈ (calculateDiff ls ds).deleted)) ∧
    (∀ p, ¬(p ∈ (calculateDiff ls ds).updated ∧ p ∈ (calculateDiff ls ds).deleted)) ∧
    (∀ p a, lookupS ls p = some a → lookupS ds p = some a →
      p ∉ (calculateDiff ls ds).added ∧ p ∉ (calculateDiff ls ds).updated ∧
        p ∉ (calculateDiff ls ds).deleted) := by
  refine ⟨mem_added_iff ls ds, mem_deleted_iff ls ds, ?_, ?_, ?_, ?_, ?_⟩
  · intro p
    rw [mem_updated_iff, statDiffers_iff]
    constructor
    · rintro ⟨_, _, h⟩
      exact h
    · rintro ⟨a, b, ha, hb, hab⟩
      exact ⟨mem_keysS_of_lookupS ha, mem_keysS_of_lookupS hb, a, b, ha, hb, hab⟩
  · intro p ⟨h1, h2⟩
    rw [mem_added_iff] at h1
    rw [mem_updated_iff] at h2
    exact h1.2 h2.2.1
  · intro p ⟨h1, h2⟩
    rw [mem_added_iff] at h1
    rw [mem_deleted_iff] at h2
    exact h1.2 h2.1
  · intro p ⟨h1, h2⟩
    rw [mem_updated_iff] at h1
    rw [mem_deleted_iff] at h2
    exact h2.2 h1.1
  · intro p a hl hd
    refine ⟨?_, ?_, ?_⟩
    · rw [mem_added_iff]
      rintro ⟨_, h⟩
      exact h (mem_keysS_of_lookupS hd)
    · rw [mem_updated_iff, statDiffers_iff]
      rintro ⟨_, _, a1, b1, ha1, hb1, hab⟩
      rw [hl] at ha1
      rw [hd] at hb1
      cases ha1
      cases hb1
      rcases hab with h | h <;> exact h rfl
    · rw [mem_deleted_iff]
      rintro ⟨_, h⟩
      exact h (mem_keysS_of_lookupS hl)

/-- Witness for C1 at a concrete pair of state maps. -/
theorem C1_calculateDiff_spec_witness :
    ("a" ∈ (calculateDiff [("a", ⟨1, 2⟩), ("c", ⟨5, 5⟩)] [("b", ⟨3, 4⟩), ("c", ⟨5, 6⟩)]).added
        ↔ "a" ∈ keysS [("a", (⟨1, 2⟩ : FileStat)), ("c", ⟨5, 5⟩)] ∧
          "a" ∉ keysS [("b", (⟨3, 4⟩ : FileStat)), ("c", ⟨5, 6⟩)]) ∧
    ¬("c" ∈ (calculateDiff [("a", ⟨1, 2⟩), ("c", ⟨5, 5⟩)] [("b", ⟨3, 4⟩), ("c", ⟨5, 6⟩)]).added ∧
      "c" ∈ (calculateDiff [("a", ⟨1, 2⟩), ("c", ⟨5, 5⟩)] [("b", ⟨3, 4⟩), ("c", ⟨5, 6⟩)]).updated) := by
  have h := C1_calculateDiff_spec [("a", ⟨1, 2⟩), ("c", ⟨5, 5⟩)] [("b", ⟨3, 4⟩), ("c", ⟨5, 6⟩)]
  exact ⟨h.1 "a", h.2.2.2.1 "c"⟩

/-! ### Chunk-identity lemmas -/

theorem idSource_data (m s i : Nat) :
    (idSource m s i).data = natChars m ++ '|' :: (natChars s ++ '|' :: natChars i) := by
  simp [idSource, natRepr, String.data_append, List.append_assoc]

theorem idSource_injective {m s i m1 s1 i1 : Nat}
    (h : idSource m s i = idSource m1 s1 i1) : m = m1 ∧ s = s1 ∧ i = i1 := by
  have hd : (idSource m s i).data = (idSource m1 s1 i1).data := by rw [h]
  rw [idSource_data, idSource_data] at hd
  obtain ⟨h1, h2⟩ := sep_split_inj _ _ _ _ (mem_natChars_ne_pipe m) (mem_natChars_ne_pipe m1) hd
  obtain ⟨h3, h4⟩ := sep_split_inj _ _ _ _ (mem_natChars_ne_pipe s) (mem_natChars_ne_pipe s1) h2
  exact ⟨natChars_injective h1, natChars_injective h3, natChars_injective h4⟩

theorem processDocument_ids (stat : FileStat) (p : String) (contents : List String)
    (sid : String) :
    (processDocument stat p contents sid).map Chunk.id
      = (List.range contents.length).map (chunkId stat.mtime stat.size) := by
  unfold processDocument
  rw [List.map_map, ← List.enum_map_fst contents, List.map_map]
  rfl

theorem processDocument_length (stat : FileStat) (p : String) (contents : List String)
    (sid : String) :
    (processDocument stat p contents sid).length = contents.length := by
  simp [processDocument]

theorem mem_processDocument {stat : FileStat} {p : String} {contents : List String}
    {sid : String} {c : Chunk} (hc : c ∈ processDocument stat p contents sid) :
    c.metadata.source = p ∧ c.metadata.fileMtime = stat.mtime ∧
      c.metadata.fileSize = stat.size ∧ c.metadata.sessionId = sid ∧
      c.content ∈ contents := by
  simp only [processDocument, List.mem_map] at hc
  obtain ⟨q, hq, rfl⟩ := hc
  exact ⟨rfl, rfl, rfl, rfl, List.getElem?_mem (List.mem_enum_iff_getElem?.1 hq)⟩

/-! ### Upsert lemmas -/

theorem findById_upsertOne_self (store : Store) (r : Record) :
    findById (upsertOne store r) r.id = some r := by
  induction store with
  | nil => simp [upsertOne, findById, List.find?]
  | cons r1 t ih =>
    unfold upsertOne
    by_cases h : r1.id = r.id
    · simp [h, findById, List.find?]
    · simp only [if_neg h, findById, List.find?]
      have : (r1.id == r.id) = false := by simp [h]
      rw [this]
      exact ih

theorem applyUpsert_cons (store : Store) (a : Record) (t : List Record) :
    applyUpsert store (a :: t) = applyUpsert (upsertOne store a) t := rfl

theorem findById_upsertOne_of_ne (store : Store) (r : Record) (i : String)
    (h : r.id ≠ i) : findById (upsertOne store r) i = findById store i := by
  induction store with
  | nil =>
    have hb : (r.id == i) = false := by simp [h]
    simp [upsertOne, findById, List.find?, hb]
  | cons r1 t ih =>
    unfold upsertOne
    by_cases h1 : r1.id = r.id
    · have hr1 : (r1.id == i) = false := by simp [h1, h]
      have hr : (r.id == i) = false := by simp [h]
      simp [h1, findById, List.find?, hr1, hr]
    · simp only [if_neg h1, findById, List.find?]
      cases hb : r1.id == i with
      | true => rfl
      | false => exact ih

theorem findById_applyUpsert_of_not_mem (store : Store) (rs : List Record) (i : String)
    (h : ∀ r ∈ rs, r.id ≠ i) : findById (applyUpsert store rs) i = findById store i := by
  induction rs generalizing store with
  | nil => rfl
  | cons a t ih =>
    rw [applyUpsert_cons, ih (upsertOne store a) (fun r hr => h r (by simp [hr]))]
    exact findById_upsertOne_of_ne store a i (h a (by simp))

theorem findById_applyUpsert_nodup (store : Store) (rs : List Record)
    (hnd : (rs.map Record.id).Nodup) {r : Record} (hr : r ∈ rs) :
    findById (applyUpsert store rs) r.id = some r := by
  induction rs generalizing store with
  | nil => cases hr
  | cons a t ih =>
    simp only [List.map_cons, List.nodup_cons] at hnd
    rcases List.mem_cons.1 hr with rfl | hrt
    · rw [applyUpsert_cons]
      rw [findById_applyUpsert_of_not_mem (upsertOne store r) t r.id
        (fun x hx hxe => hnd.1 (hxe ▸ List.mem_map_of_mem Record.id hx))]
      exact findById_upsertOne_self store r
    · rw [applyUpsert_cons]
      exact ih (upsertOne store a) hnd.2 hrt

theorem mem_upsertOne {store : Store} {r x : Record} (hx : x ∈ upsertOne store r) :
    x = r ∨ x ∈ store := by
  induction store with
  | nil => simp [upsertOne] at hx; simp [hx]
  | cons r1 t ih =>
    unfold upsertOne at hx
    by_cases h : r1.id = r.id
    · rw [if_pos h] at hx
      rcases List.mem_cons.1 hx with rfl | hx1
      · exact Or.inl rfl
      · exact Or.inr (by simp [hx1])
    · rw [if_neg h] at hx
      rcases List.mem_cons.1 hx with rfl | hx1
      · exact Or.inr (by simp)
      · rcases ih hx1 with h1 | h1
        · exact Or.inl h1
        · exact Or.inr (by simp [h1])

theorem mem_applyUpsert {store : Store} {rs : List Record} {x : Record}
    (hx : x ∈ applyUpsert store rs) : x ∈ rs ∨ x ∈ store := by
  induction rs generalizing store with
  | nil => exact Or.inr hx
  | cons a t ih =>
    rw [applyUpsert_cons] at hx
    rcases ih hx with h1 | h1
    · exact Or.inl (by simp [h1])
    · rcases mem_upsertOne h1 with rfl | h2
      · exact Or.inl (by simp)
      · exact Or.inr h2

theorem mem_upsertOne_of_ne {store : Store} {x : Record} (r : Record)
    (hx : x ∈ store) (hne : x.id ≠ r.id) : x ∈ upsertOne store r := by
  induction store with
  | nil => cases hx
  | cons r1 t ih =>
    unfold upsertOne
    by_cases h : r1.id = r.id
    · rcases List.mem_cons.1 hx with rfl | hx1
      · exact absurd h hne
      · simp [h, hx1]
    · rcases List.mem_cons.1 hx with rfl | hx1
      · simp [h]
      · simp only [if_neg h, List.mem_cons]
        exact Or.inr (ih hx1)

theorem mem_applyUpsert_of_ne {store : Store} {x : Record} (rs : List Record)
    (hx : x ∈ store) (hne : ∀ r ∈ rs, x.id ≠ r.id) : x ∈ applyUpsert store rs := by
  induction rs generalizing store with
  | nil => exact hx
  | cons a t ih =>
    rw [applyUpsert_cons]
    exact ih (mem_upsertOne_of_ne a hx (hne a (by simp)))
      (fun r hr => hne r (by simp [hr]))

theorem mem_of_findById {store : Store} {i : String} {r : Record}
    (h : findById store i = some r) : r ∈ store :=
  List.mem_of_find?_eq_some h

/-- C3: chunk id generation is deterministic and depends exactly on
(mtime, size, ordinal): the id list of `process_document` is a function of
mtime, size and the number of chunks only (no path, content, session,
randomness or wall clock enters it), the id is the SHA-1 hex digest of the
string "mtime|size|index", and distinct (mtime, size, index) triples always
produce distinct hash-input strings, so the id changes with any component
(up to SHA-1 collisions, which is all a hash can give). -/
theorem C3_chunkId_deterministic (stat1 stat2 : FileStat) (p1 p2 : String)
    (c1 c2 : List String) (sid1 sid2 : String)
    (hm : stat1.mtime = stat2.mtime) (hs : stat1.size = stat2.size)
    (hlen : c1.length = c2.length) :
    ((processDocument stat1 p1 c1 sid1).map Chunk.id
        = (processDocument stat2 p2 c2 sid2).map Chunk.id) ∧
    (∀ m s i, chunkId m s i = sha1Hex (idSource m s i)) ∧
    (∀ m s i m1 s1 i1, (m, s, i) ≠ (m1, s1, i1) → idSource m s i ≠ idSource m1 s1 i1) := by
  refine ⟨?_, fun m s i => rfl, ?_⟩
  · rw [processDocument_ids, processDocument_ids, hm, hs, hlen]
  · intro m s i m1 s1 i1 hne heq
    obtain ⟨h1, h2, h3⟩ := idSource_injective heq
    exact hne (by rw [h1, h2, h3])

/-- Witness for C3: identical (mtime, size) and chunk count give identical
id lists across two runs differing in path, content and session; changing
only the ordinal changes the hash input. -/
theorem C3_chunkId_deterministic_witness :
    ((processDocument ⟨100, 7⟩ "a.txt" ["x", "y"] "system").map Chunk.id
        = (processDocument ⟨100, 7⟩ "b.txt" ["u", "v"] "s2").map Chunk.id) ∧
    idSource 100 7 0 ≠ idSource 100 7 1 := by
  have h := C3_chunkId_deterministic ⟨100, 7⟩ ⟨100, 7⟩ "a.txt" "b.txt" ["x", "y"] ["u", "v"]
    "system" "s2" rfl rfl rfl
  exact ⟨h.1, h.2.2 100 7 0 100 7 1 (by decide)⟩

/-- C9: chunk ids are independent of path and content: two distinct files
with equal (mtime, size) get byte-identical ids at equal ordinals, and
upserting the second file's records into a store that holds the first
file's records leaves, under each shared id, exactly the second file's
record (the first file's record is replaced). -/
theorem C9_chunkId_collision_replaces (stat1 stat2 : FileStat) (p1 p2 : String)
    (c1 c2 : List String) (sid : String) (i : Nat) (embedOne : String → Vec)
    (store : Store)
    (hm : stat1.mtime = stat2.mtime) (hs : stat1.size = stat2.size)
    (hi1 : i < c1.length) (hi2 : i < c2.length)
    (hnd : ((processDocument stat2 p2 c2 sid).map Chunk.id).Nodup) :
    (((processDocument stat1 p1 c1 sid).map Chunk.id)[i]?
        = ((processDocument stat2 p2 c2 sid).map Chunk.id)[i]?) ∧
    (∀ r ∈ (processDocument stat2 p2 c2 sid).map (recordOf embedOne),
      findById
        (applyUpsert (applyUpsert store ((processDocument stat1 p1 c1 sid).map (recordOf embedOne)))
          ((processDocument stat2 p2 c2 sid).map (recordOf embedOne)))
        r.id = some r) := by
  constructor
  · rw [processDocument_ids, processDocument_ids, hm, hs]
    rw [List.getElem?_map, List.getElem?_map]
    rw [List.getElem?_range hi1, List.getElem?_range hi2]
  · intro r hr
    refine findById_applyUpsert_nodup _ _ ?_ hr
    have : ((processDocument stat2 p2 c2 sid).map (recordOf embedOne)).map Record.id
        = (processDocument stat2 p2 c2 sid).map Chunk.id := by
      rw [List.map_map]
      rfl
    rw [this]
    exact hnd

/-- A fixed embedding provider used to instantiate witnesses. -/
def wVec : String → Vec := fun _ => [7]

set_option maxRecDepth 20000 in
/-- Witness for C9: two one-vs-two-chunk files share (mtime, size) = (1, 2);
ordinal 0 gets the same id in both, and after upserting both files the
record stored under that id is the second file's chunk. -/
theorem C9_chunkId_collision_replaces_witness :
    (((processDocument ⟨1, 2⟩ "a.txt" ["aa"] "system").map Chunk.id)[0]?
        = ((processDocument ⟨1, 2⟩ "b.txt" ["bb", "cc"] "system").map Chunk.id)[0]?) ∧
    findById
        (applyUpsert
          (applyUpsert [] ((processDocument ⟨1, 2⟩ "a.txt" ["aa"] "system").map (recordOf wVec)))
          ((processDocument ⟨1, 2⟩ "b.txt" ["bb", "cc"] "system").map (recordOf wVec)))
        (recordOf wVec ⟨chunkId 1 2 0, "bb", ⟨"b.txt", 1, 2, 0, "system"⟩⟩).id
      = some (recordOf wVec ⟨chunkId 1 2 0, "bb", ⟨"b.txt", 1, 2, 0, "system"⟩⟩) := by
  have h := C9_chunkId_collision_replaces ⟨1, 2⟩ ⟨1, 2⟩ "a.txt" "b.txt" ["aa"] ["bb", "cc"]
    "system" 0 wVec [] rfl rfl (by decide) (by decide) (by decide)
  exact ⟨h.1, h.2 _ (by decide)⟩

/-- C4: the distance-to-similarity transform applied by `query_similar` is
`exp(-distance)`: strictly monotone decreasing (so ascending-distance
ranking order is preserved), 1 at distance 0, and in (0, 1] for every
non-negative distance. -/
theorem C4_similarity_exp_transform :
    (∀ d1 d2 : ℝ, d1 < d2 → similarity d1 > similarity d2) ∧
    similarity 0 = 1 ∧
    (∀ d : ℝ, 0 ≤ d → similarity d ∈ Set.Ioc (0 : ℝ) 1) := by
  refine ⟨?_, ?_, ?_⟩
  · intro d1 d2 h
    exact Real.exp_lt_exp.2 (by linarith)
  · simp [similarity]
  · intro d hd
    refine ⟨Real.exp_pos _, ?_⟩
    calc Real.exp (-d) ≤ Real.exp 0 := Real.exp_le_exp.2 (by linarith)
    _ = 1 := Real.exp_zero

/-- Witness for C4 at the distances 0, 1 and 2. -/
theorem C4_similarity_exp_transform_witness :
    similarity 0 > similarity 1 ∧ similarity 0 = 1 ∧ similarity 2 ∈ Set.Ioc (0 : ℝ) 1 :=
  ⟨C4_similarity_exp_transform.1 0 1 (by norm_num), C4_similarity_exp_transform.2.1,
    C4_similarity_exp_transform.2.2 2 (by norm_num)⟩

/-! ### Retrieval lemmas -/

theorem mem_insertRanked {x y : Nat × Record} {l : List (Nat × Record)}
    (h : y ∈ insertRanked x l) : y = x ∨ y ∈ l := by
  induction l with
  | nil => simp [insertRanked] at h; simp [h]
  | cons z t ih =>
    unfold insertRanked at h
    split at h
    · rcases List.mem_cons.1 h with rfl | h1
      · exact Or.inl rfl
      · exact Or.inr h1
    · rcases List.mem_cons.1 h with rfl | h1
      · exact Or.inr (by simp)
      · rcases ih h1 with h2 | h2
        · exact Or.inl h2
        · exact Or.inr (by simp [h2])

theorem mem_rankSort {y : Nat × Record} {l : List (Nat × Record)}
    (h : y ∈ rankSort l) : y ∈ l := by
  induction l with
  | nil => simp [rankSort] at h
  | cons z t ih =>
    unfold rankSort at h
    rcases mem_insertRanked h with rfl | h1
    · simp
    · simp [ih h1]

theorem querySimilar_mem_filter {flag : Bool} {vec : Vec} {topK : Int} {w : WhereFilter}
    {store : Store} {res : List QueryResult} {r : QueryResult}
    (hq : querySimilar flag vec topK (some w) store = .ok res) (hr : r ∈ res) :
    ∃ rec ∈ store, matchesWhere w rec.metadata = true ∧ r.metadata = rec.metadata := by
  unfold querySimilar at hq
  split at hq
  · cases hq
  · split at hq
    · cases hq
    · split at hq
      · cases hq
      · simp only [Except.ok.injEq] at hq
        subst hq
        simp only [List.mem_map] at hr
        obtain ⟨p, hp, rfl⟩ := hr
        have h1 : p ∈ rankSort ((store.filter (fun r => matchesWhere w r.metadata)).map
            (fun r => (dist2 vec r.embedding, r))) := List.mem_of_mem_take hp
        have h2 := mem_rankSort h1
        simp only [List.mem_map] at h2
        obtain ⟨rec, hrec, rfl⟩ := h2
        obtain ⟨hmem, hmatch⟩ := List.mem_filter.1 hrec
        exact ⟨rec, hmem, hmatch, rfl⟩

/-- C5 (amended): a retrieval issued through the agent retriever path
(`_create_retriever_with_filter`) carries the filter
session_id == "system" OR session_id == current session, so it never
returns a chunk scoped to another session; the claim as stated is false
because the `RagPipeline.query` path issues its query with no filter at
all (see the counterexample). -/
theorem C5_retriever_scope_isolation (sessionId : String) (topK : Int) (vec : Vec)
    (store : Store) (res : List QueryResult) (r : QueryResult)
    (hq : retrieverQuery sessionId topK vec store = .ok res) (hr : r ∈ res) :
    r.metadata.sessionId = "system" ∨ r.metadata.sessionId = sessionId := by
  obtain ⟨rec, _, hmatch, hmd⟩ := querySimilar_mem_filter hq hr
  rw [hmd]
  simpa [scopeFilter, matchesWhere, metaField] using hmatch

/-- Witness for C5 at a concrete store: a query under session "A" returns
the "system"-scoped chunk, whose scope is indeed global or the caller's. -/
theorem C5_retriever_scope_isolation_witness :
    (⟨"doc", ⟨"s.txt", 1, 1, 0, "system"⟩, 1⟩ : QueryResult).metadata.sessionId = "system" ∨
    (⟨"doc", ⟨"s.txt", 1, 1, 0, "system"⟩, 1⟩ : QueryResult).metadata.sessionId = "A" :=
  C5_retriever_scope_isolation "A" 3 [1] [⟨"id1", "doc", [0], ⟨"s.txt", 1, 1, 0, "system"⟩⟩]
    [⟨"doc", ⟨"s.txt", 1, 1, 0, "system"⟩, 1⟩] ⟨"doc", ⟨"s.txt", 1, 1, 0, "system"⟩, 1⟩
    rfl (by decide)

/-- C5 counterexample: `RagPipeline.query` retrieves with no filter
(`rag_pipeline.py:167-170` passes no `where_filter`), so with the caller's
session being "A" it returns a chunk whose scope is "B", which is neither
the reserved global tag "system" nor "A" — the claim that every retrieval
query filters by scope is false on this code path. -/
theorem C5_scope_isolation_counterexample :
    ragPipelineRetrieve [1] [⟨"idB", "docB", [0], ⟨"x.txt", 1, 1, 0, "B"⟩⟩]
        = .ok [⟨"docB", ⟨"x.txt", 1, 1, 0, "B"⟩, 1⟩] ∧
    ("B" : String) ≠ "system" ∧ ("B" : String) ≠ "A" :=
  ⟨rfl, by decide, by decide⟩

/-- C8 (amended): `query_similar` rejects an empty query vector and a
non-positive top_k with a validation error before any store access (the
result is the same validation error for every store, even one whose access
would fail); `upsert_batch`, however, performs no validation: an empty id
list is silently skipped with success rather than rejected, and any other
input — mismatched lengths or empty id strings included — is forwarded to
the collection unchecked (see the counterexample). -/
theorem C8_repository_validation (store : Store) (flag : Bool) (topK : Int)
    (wf : Option WhereFilter) (vec : Vec) (docs : List String) (embs : List Vec)
    (metas : List Metadata) :
    (querySimilar flag [] topK wf store = .error "validation_empty_query_vector") ∧
    (vec ≠ [] → topK ≤ 0 →
      querySimilar flag vec topK wf store = .error "validation_nonpositive_top_k") ∧
    (upsertBatch flag store [] docs embs metas = .ok store) := by
  refine ⟨rfl, ?_, rfl⟩
  intro hv ht
  unfold querySimilar
  rw [if_neg hv, if_pos ht]

/-- Witness for C8 at concrete malformed inputs, against a failing store:
both rejections are validation errors, not store failures, and the
empty-id-list upsert is silently skipped. -/
theorem C8_repository_validation_witness :
    (querySimilar true [] 0 none [] = .error "validation_empty_query_vector") ∧
    (querySimilar true [1] 0 none [] = .error "validation_nonpositive_top_k") ∧
    (upsertBatch true [] [] [] [] [] = .ok []) := by
  have h := C8_repository_validation [] true 0 none [1] [] [] []
  exact ⟨h.1, h.2.1 (by decide) (by decide), h.2.2⟩

/-- C8 counterexample: a call `upsert_batch(ids=["a"], documents=[],
embeddings=[], metadatas=[])` with mismatched list lengths is not rejected
before I/O: against a failing store it produces the store failure (so the
collection was reached), and against a healthy store the error that comes
back is the Chroma client's own length complaint, not a repository
validation. -/
theorem C8_repository_validation_counterexample :
    upsertBatch true [] ["a"] [] [] [] = .error "store_failure" ∧
    upsertBatch false [] ["a"] [] [] [] = .error "chroma_unequal_lengths" := by
  exact ⟨rfl, rfl⟩

/-! ### Embedding-batch lemmas -/

theorem chunksOfAux_nil {α : Type} (k fuel : Nat) : chunksOfAux k fuel ([] : List α) = [] := by
  cases fuel <;> rfl

theorem chunksOf_small {α : Type} {k : Nat} {l : List α} (hne : l ≠ [])
    (hlen : l.length ≤ k) : chunksOf k l = [l] := by
  unfold chunksOf
  cases l with
  | nil => exact absurd rfl hne
  | cons a t =>
    simp only [List.length_cons]
    unfold chunksOfAux
    rw [List.take_of_length_le hlen, List.drop_eq_nil_of_le hlen, chunksOfAux_nil]

theorem embedTexts_single_batch (embedOne : String → Vec) {texts : List String}
    (hne : texts ≠ []) (hlen : texts.length ≤ EMBEDDING_BATCH_SIZE) :
    embedTexts embedOne texts = embedBatch embedOne texts := by
  unfold embedTexts
  rw [if_neg (by simpa [List.isEmpty_iff] using hne)]
  rw [chunksOf_small hne hlen]
  simp only [List.foldl_cons, List.foldl_nil]
  unfold embedFoldStep
  cases h : embedBatch embedOne texts with
  | ok ws => simp
  | error e => simp

theorem embedBatch_ok (embedOne : String → Vec) {texts : List String}
    (h : ∃ t ∈ texts, isBlank t = false) :
    embedBatch embedOne texts
      = .ok (((texts.filter (fun t => !(isBlank t))).map cleanText).map embedOne) := by
  obtain ⟨t, ht, hbl⟩ := h
  have hmem : t ∈ texts.filter (fun t => !(isBlank t)) :=
    List.mem_filter.2 ⟨ht, by simp [hbl]⟩
  have hne : (texts.filter (fun t => !(isBlank t))).map cleanText ≠ [] := by
    intro he
    rw [List.map_eq_nil_iff] at he
    rw [he] at hmem
    cases hmem
  unfold embedBatch
  rw [if_neg (by simpa [List.isEmpty_iff] using hne)]

theorem planChunks_nil (fs : Filesystem) (sid : String) : planChunks fs [] sid = [] := rfl

/-- C10: `embed_texts` silently drops whitespace-only inputs within a batch:
with at least one non-whitespace and one whitespace-only text in a
single-provider-batch input it returns one vector per non-whitespace text —
strictly fewer than the inputs — and a sync run whose collected chunk
contents are that list therefore hands `upsert_batch` an embeddings list
shorter than its ids/documents/metadatas lists (which the store then
rejects, the sync service swallowing the error as 0 chunks added). -/
theorem C10_embedTexts_drops_blanks (embedOne : String → Vec) (texts : List String)
    (fs : Filesystem) (tp : List String) (sid : String) (store : Store)
    (hlen : texts.length ≤ EMBEDDING_BATCH_SIZE)
    (hblank : ∃ t ∈ texts, isBlank t = true)
    (hnonblank : ∃ t ∈ texts, isBlank t = false)
    (hc : (planChunks fs tp sid).map Chunk.content = texts) :
    embedTexts embedOne texts
        = .ok (((texts.filter (fun t => !(isBlank t))).map cleanText).map embedOne) ∧
    (((texts.filter (fun t => !(isBlank t))).map cleanText).map embedOne).length
        < texts.length ∧
    (((texts.filter (fun t => !(isBlank t))).map cleanText).map embedOne).length
        < ((planChunks fs tp sid).map Chunk.id).length ∧
    processAndUpsertFiles embedOne false fs store tp sid = .ok (store, 0) := by
  have hne : texts ≠ [] := by
    rintro rfl
    obtain ⟨t, ht, _⟩ := hnonblank
    cases ht
  have hok : embedTexts embedOne texts
      = .ok (((texts.filter (fun t => !(isBlank t))).map cleanText).map embedOne) := by
    rw [embedTexts_single_batch embedOne hne hlen]
    exact embedBatch_ok embedOne hnonblank
  have hshort : (((texts.filter (fun t => !(isBlank t))).map cleanText).map embedOne).length
      < texts.length := by
    rw [List.length_map, List.length_map]
    refine List.length_filter_lt_length_iff_exists.2 ?_
    obtain ⟨t, ht, hbl⟩ := hblank
    exact ⟨t, ht, by simp [hbl]⟩
  have hids : ((planChunks fs tp sid).map Chunk.id).length = texts.length := by
    rw [List.length_map, ← hc, List.length_map]
  have htp : ¬tp.isEmpty = true := by
    intro h
    rw [List.isEmpty_iff] at h
    subst h
    rw [planChunks_nil] at hc
    exact hne hc.symm
  have hchunks : ¬(planChunks fs tp sid).isEmpty = true := by
    intro h
    rw [List.isEmpty_iff] at h
    rw [h] at hc
    exact hne hc.symm
  have hidne : ¬((planChunks fs tp sid).map Chunk.id).isEmpty = true := by
    intro h
    rw [List.isEmpty_iff] at h
    have h2 := congrArg List.length h
    rw [hids] at h2
    exact hne (List.length_eq_zero.1 h2)
  have hub : upsertBatch false store ((planChunks fs tp sid).map Chunk.id) texts
      (((texts.filter (fun t => !(isBlank t))).map cleanText).map embedOne)
      ((planChunks fs tp sid).map Chunk.metadata) = .error "chroma_unequal_lengths" := by
    unfold upsertBatch
    rw [if_neg hidne]
    unfold collectionUpsert
    rw [if_neg (by simp)]
    rw [if_neg]
    rintro ⟨-, h2, -⟩
    rw [hids] at h2
    omega
  refine ⟨hok, hshort, by rw [hids]; exact hshort, ?_⟩
  unfold processAndUpsertFiles
  dsimp only
  rw [if_neg htp, if_neg hchunks, hc, hok]
  dsimp only
  rw [hub]

set_option maxRecDepth 40000 in
/-- Witness for C10: contents ["hi", "   "] — one blank chunk — embed to a
single vector, and the sync processing step ends in the swallowed store
rejection, reporting 0 chunks. -/
theorem C10_embedTexts_drops_blanks_witness :
    embedTexts wVec ["hi", "   "]
        = .ok (((["hi", "   "].filter (fun t => !(isBlank t))).map cleanText).map wVec) ∧
    processAndUpsertFiles wVec false [("a.txt", ⟨1, 5⟩, some ["hi", "   "])] []
        ["a.txt"] "system" = .ok ([], 0) := by
  have h := C10_embedTexts_drops_blanks wVec ["hi", "   "]
    [("a.txt", ⟨1, 5⟩, some ["hi", "   "])] ["a.txt"] "system" []
    (by decide) ⟨"   ", by decide, by decide⟩ ⟨"hi", by decide, by decide⟩ (by decide)
  exact ⟨h.1, h.2.2.2⟩

/-! ### Sync-run lemmas -/

theorem foldl_append_acc {α β : Type} (f : α → List β) (l : List α) :
    ∀ a : List β, l.foldl (fun acc p => acc ++ f p) a = a ++ l.foldl (fun acc p => acc ++ f p) [] := by
  induction l with
  | nil => intro a; simp
  | cons p t ih =>
    intro a
    simp only [List.foldl_cons, List.nil_append]
    rw [ih (a ++ f p), ih (f p), List.append_assoc]

theorem planChunks_cons (fs : Filesystem) (p : String) (tp : List String) (sid : String) :
    planChunks fs (p :: tp) sid = chunksFor fs sid p ++ planChunks fs tp sid := by
  unfold planChunks
  simp only [List.foldl_cons, List.nil_append]
  exact foldl_append_acc (chunksFor fs sid) tp (chunksFor fs sid p)

theorem chunksFor_eq_nil_of_not_ok {fs : Filesystem} {p sid : String}
    (h : fsOk fs p = false) : chunksFor fs sid p = [] := by
  unfold fsOk at h
  unfold chunksFor
  cases hl : lookupS fs p with
  | none => rfl
  | some e =>
    obtain ⟨st, oc⟩ := e
    cases oc with
    | none => rfl
    | some contents => rw [hl] at h; cases h

theorem planChunks_skips_failures (fs : Filesystem) (tp : List String) (sid : String) :
    planChunks fs tp sid = planChunks fs (tp.filter (fsOk fs)) sid := by
  induction tp with
  | nil => rfl
  | cons p t ih =>
    rw [planChunks_cons]
    by_cases h : fsOk fs p = true
    · rw [List.filter_cons_of_pos h, planChunks_cons, ih]
    · rw [List.filter_cons_of_neg h]
      rw [chunksFor_eq_nil_of_not_ok (by simpa using h), List.nil_append]
      exact ih

theorem processAndUpsert_raises (embedOne : String → Vec) (fs : Filesystem) (store : Store)
    (tp : List String) (sid : String) (embs : List Vec)
    (hembed : embedTexts embedOne ((planChunks fs tp sid).map Chunk.content) = .ok embs) :
    processAndUpsertFiles embedOne true fs store tp sid = .ok (store, 0) := by
  unfold processAndUpsertFiles
  dsimp only
  by_cases htp : tp.isEmpty = true
  · rw [if_pos htp]
  · rw [if_neg htp]
    by_cases hch : (planChunks fs tp sid).isEmpty = true
    · rw [if_pos hch]
    · rw [if_neg hch, hembed]
      dsimp only
      have hidne : ¬((planChunks fs tp sid).map Chunk.id).isEmpty = true := by
        rw [List.isEmpty_iff] at hch ⊢
        simpa using hch
      unfold upsertBatch
      rw [if_neg hidne]
      unfold collectionUpsert
      rw [if_pos rfl]

theorem processAndUpsert_isOk (embedOne : String → Vec) (storeRaises : Bool) (fs : Filesystem)
    (store : Store) (tp : List String) (sid : String)
    (hembed : planChunks fs tp sid = [] ∨
      ∃ embs, embedTexts embedOne ((planChunks fs tp sid).map Chunk.content) = .ok embs) :
    ∃ res, processAndUpsertFiles embedOne storeRaises fs store tp sid = .ok res := by
  unfold processAndUpsertFiles
  dsimp only
  by_cases htp : tp.isEmpty = true
  · rw [if_pos htp]; exact ⟨(store, 0), rfl⟩
  · rw [if_neg htp]
    by_cases hch : (planChunks fs tp sid).isEmpty = true
    · rw [if_pos hch]; exact ⟨(store, 0), rfl⟩
    · rw [if_neg hch]
      rcases hembed with hnil | ⟨embs, hok⟩
      · rw [List.isEmpty_iff] at hch; exact absurd hnil hch
      · rw [hok]
        dsimp only
        cases hub : upsertBatch storeRaises store ((planChunks fs tp sid).map Chunk.id)
            ((planChunks fs tp sid).map Chunk.content) embs
            ((planChunks fs tp sid).map Chunk.metadata) with
        | ok st => exact ⟨(st, ((planChunks fs tp sid).map Chunk.id).length), rfl⟩
        | error e => exact ⟨(store, 0), rfl⟩

/-- C6 (amended): an underlying store failure during the final
`upsert_batch` call does not propagate out of the sync run: it is caught
inside `_process_and_upsert_files` and logged, and the run completes with a
summary that reports `chunks_added = 0` while still reporting the diff's
file counts as added/updated/deleted. -/
theorem C6_upsert_failure_swallowed (embedOne : String → Vec) (fs : Filesystem)
    (store : Store) (sid : String) (embs : List Vec)
    (hembed : embedTexts embedOne
      ((planChunks fs
        ((calculateDiff (localState fs) (getIndexedFileState store)).added ++
          (calculateDiff (localState fs) (getIndexedFileState store)).updated) sid).map
        Chunk.content) = .ok embs) :
    (syncRun embedOne true fs store sid).isOk = true ∧
    (∀ out, syncRun embedOne true fs store sid = .ok out →
      out.1.chunksAdded = 0 ∧
      out.1.filesAdded
          = (calculateDiff (localState fs) (getIndexedFileState store)).added.length ∧
      out.1.filesUpdated
          = (calculateDiff (localState fs) (getIndexedFileState store)).updated.length ∧
      out.1.filesDeleted
          = (calculateDiff (localState fs) (getIndexedFileState store)).deleted.length) := by
  have hrun := processAndUpsert_raises embedOne fs
    (deleteFiles
      (deleteFiles store (calculateDiff (localState fs) (getIndexedFileState store)).deleted).1
      (calculateDiff (localState fs) (getIndexedFileState store)).updated).1
    ((calculateDiff (localState fs) (getIndexedFileState store)).added ++
      (calculateDiff (localState fs) (getIndexedFileState store)).updated) sid embs hembed
  have hs : syncRun embedOne true fs store sid = .ok
      ({ filesAdded := (calculateDiff (localState fs) (getIndexedFileState store)).added.length
         filesUpdated := (calculateDiff (localState fs) (getIndexedFileState store)).updated.length
         filesDeleted := (calculateDiff (localState fs) (getIndexedFileState store)).deleted.length
         chunksAdded := 0
         chunksDeleted :=
          (deleteFiles store (calculateDiff (localState fs) (getIndexedFileState store)).deleted).2 +
          (deleteFiles
            (deleteFiles store
              (calculateDiff (localState fs) (getIndexedFileState store)).deleted).1
            (calculateDiff (localState fs) (getIndexedFileState store)).updated).2 },
        (deleteFiles
          (deleteFiles store (calculateDiff (localState fs) (getIndexedFileState store)).deleted).1
          (calculateDiff (localState fs) (getIndexedFileState store)).updated).1) := by
    unfold syncRun
    dsimp only
    rw [hrun]
  refine ⟨by rw [hs]; rfl, ?_⟩
  intro out hout
  rw [hs] at hout
  cases hout
  exact ⟨rfl, rfl, rfl, rfl⟩

set_option maxRecDepth 40000 in
/-- C6 counterexample: with one new local file and a store whose upsert
raises, the run does not fail: it returns a summary claiming the file as
added with 0 chunks, and the store is untouched — the claim that the error
propagates uncaught out of the run is false. -/
theorem C6_upsert_failure_swallowed_counterexample :
    syncRun wVec true [("a.txt", ⟨1, 5⟩, some ["hello"])] [] "system"
      = .ok (⟨1, 0, 0, 0, 0⟩, []) := by
  rfl

set_option maxRecDepth 40000 in
/-- Witness for C6: the amended theorem applied at the counterexample's
input shows the run completes. -/
theorem C6_upsert_failure_swallowed_witness :
    (syncRun wVec true [("a.txt", ⟨1, 5⟩, some ["hello"])] [] "system").isOk = true :=
  (C6_upsert_failure_swallowed wVec [("a.txt", ⟨1, 5⟩, some ["hello"])] [] "system"
    [wVec "hello"] rfl).1

/-- C7: per-file failure isolation: the chunk-collection loop of a sync run
produces exactly the chunks of the files whose load/chunk step succeeds —
a failing file is skipped and contributes nothing, the remaining files all
contribute — and, whenever the embedding step does not fail (it is given at
least one non-blank chunk or no chunks at all), the run completes with a
summary reporting the diff's file counts, whatever the store does. -/
theorem C7_per_file_isolation (embedOne : String → Vec) (storeRaises : Bool) (fs : Filesystem)
    (store : Store) (tp : List String) (sid : String)
    (hembed : planChunks fs
        ((calculateDiff (localState fs) (getIndexedFileState store)).added ++
          (calculateDiff (localState fs) (getIndexedFileState store)).updated) sid = [] ∨
      ∃ embs, embedTexts embedOne
        ((planChunks fs
          ((calculateDiff (localState fs) (getIndexedFileState store)).added ++
            (calculateDiff (localState fs) (getIndexedFileState store)).updated) sid).map
          Chunk.content) = .ok embs) :
    (planChunks fs tp sid = planChunks fs (tp.filter (fsOk fs)) sid) ∧
    (syncRun embedOne storeRaises fs store sid).isOk = true ∧
    (∀ out, syncRun embedOne storeRaises fs store sid = .ok out →
      out.1.filesAdded
          = (calculateDiff (localState fs) (getIndexedFileState store)).added.length ∧
      out.1.filesUpdated
          = (calculateDiff (localState fs) (getIndexedFileState store)).updated.length ∧
      out.1.filesDeleted
          = (calculateDiff (localState fs) (getIndexedFileState store)).deleted.length) := by
  obtain ⟨res, hres⟩ := processAndUpsert_isOk embedOne storeRaises fs
    (deleteFiles
      (deleteFiles store (calculateDiff (localState fs) (getIndexedFileState store)).deleted).1
      (calculateDiff (localState fs) (getIndexedFileState store)).updated).1
    ((calculateDiff (localState fs) (getIndexedFileState store)).added ++
      (calculateDiff (localState fs) (getIndexedFileState store)).updated) sid hembed
  have hs : syncRun embedOne storeRaises fs store sid = .ok
      ({ filesAdded := (calculateDiff (localState fs) (getIndexedFileState store)).added.length
         filesUpdated := (calculateDiff (localState fs) (getIndexedFileState store)).updated.length
         filesDeleted := (calculateDiff (localState fs) (getIndexedFileState store)).deleted.length
         chunksAdded := res.2
         chunksDeleted :=
          (deleteFiles store (calculateDiff (localState fs) (getIndexedFileState store)).deleted).2 +
          (deleteFiles
            (deleteFiles store
              (calculateDiff (localState fs) (getIndexedFileState store)).deleted).1
            (calculateDiff (localState fs) (getIndexedFileState store)).updated).2 },
        res.1) := by
    unfold syncRun
    dsimp only
    rw [hres]
  refine ⟨planChunks_skips_failures fs tp sid, by rw [hs]; rfl, ?_⟩
  intro out hout
  rw [hs] at hout
  cases hout
  exact ⟨rfl, rfl, rfl⟩

set_option maxRecDepth 40000 in
/-- Witness for C7: a filesystem with one failing and one good file — the
collection loop keeps exactly the good file's chunks and the run completes. -/
theorem C7_per_file_isolation_witness :
    (planChunks [("bad.pdf", ⟨9, 9⟩, none), ("ok.txt", ⟨1, 2⟩, some ["fine"])]
        ["bad.pdf", "ok.txt"] "system"
      = planChunks [("bad.pdf", ⟨9, 9⟩, none), ("ok.txt", ⟨1, 2⟩, some ["fine"])]
        (["bad.pdf", "ok.txt"].filter
          (fsOk [("bad.pdf", ⟨9, 9⟩, none), ("ok.txt", ⟨1, 2⟩, some ["fine"])])) "system") ∧
    (syncRun wVec false [("bad.pdf", ⟨9, 9⟩, none), ("ok.txt", ⟨1, 2⟩, some ["fine"])]
      [] "system").isOk = true := by
  have h := C7_per_file_isolation wVec false
    [("bad.pdf", ⟨9, 9⟩, none), ("ok.txt", ⟨1, 2⟩, some ["fine"])] [] ["bad.pdf", "ok.txt"]
    "system" (Or.inr ⟨[wVec "fine"], rfl⟩)
  exact ⟨h.1, h.2.1⟩

/-! ### Map-insertion and indexed-file-state lemmas -/

theorem lookup_insertOv_self {α : Type} (m : List (String × α)) (k : String) (v : α) :
    lookupS (insertOv m k v) k = some v := by
  induction m with
  | nil => simp [insertOv, lookupS]
  | cons e t ih =>
    obtain ⟨k1, v1⟩ := e
    unfold insertOv
    by_cases h : k1 = k
    · simp [h, lookupS]
    · rw [if_neg h]
      unfold lookupS
      rw [if_neg h]
      exact ih

theorem lookup_insertOv_ne {α : Type} (m : List (String × α)) (k p : String) (v : α)
    (h : k ≠ p) : lookupS (insertOv m k v) p = lookupS m p := by
  induction m with
  | nil => simp [insertOv, lookupS, h]
  | cons e t ih =>
    obtain ⟨k1, v1⟩ := e
    unfold insertOv
    by_cases h1 : k1 = k
    · subst h1
      simp [lookupS, if_neg (by simpa using h)]
    · simp only [if_neg h1, lookupS]
      by_cases h2 : k1 = p
      · simp [h2]
      · rw [if_neg h2, if_neg h2]
        exact ih

theorem keys_insertOv {α : Type} (m : List (String × α)) (k p : String) (v : α) :
    p ∈ keysS (insertOv m k v) ↔ p ∈ keysS m ∨ p = k := by
  induction m with
  | nil => simp [insertOv, keysS]
  | cons e t ih =>
    obtain ⟨k1, v1⟩ := e
    unfold insertOv
    by_cases h : k1 = k
    · subst h
      rw [if_pos rfl]
      simp only [keysS, List.map_cons, List.mem_cons]
      tauto
    · rw [if_neg h]
      simp only [keysS, List.map_cons, List.mem_cons] at ih ⊢
      rw [ih]
      tauto

theorem gifs_lookup_absent :
    ∀ (store : Store) (m : List (String × FileStat)) (p : String),
      (∀ r ∈ store, r.metadata.source ≠ p) →
      lookupS (store.foldl gifsStep m) p = lookupS m p := by
  intro store
  induction store with
  | nil => intro m p _; rfl
  | cons r t ih =>
    intro m p hne
    simp only [List.foldl_cons]
    rw [ih (gifsStep m r) p (fun x hx => hne x (by simp [hx]))]
    unfold gifsStep
    by_cases h : r.metadata.source = ""
    · rw [if_pos h]
    · rw [if_neg h]
      exact lookup_insertOv_ne m _ p _ (hne r (by simp))

theorem gifs_lookup_consistent :
    ∀ (store : Store) (m : List (String × FileStat)) (p : String) (st : FileStat),
      p ≠ "" →
      (∀ r ∈ store, r.metadata.source = p →
        r.metadata.fileMtime = st.mtime ∧ r.metadata.fileSize = st.size) →
      (∃ r ∈ store, r.metadata.source = p) →
      lookupS (store.foldl gifsStep m) p = some st := by
  intro store
  induction store with
  | nil =>
    intro m p st _ _ hex
    obtain ⟨r, hr, _⟩ := hex
    cases hr
  | cons r t ih =>
    intro m p st hp hcons hex
    simp only [List.foldl_cons]
    by_cases hex2 : ∃ x ∈ t, x.metadata.source = p
    · exact ih (gifsStep m r) p st hp (fun x hx => hcons x (by simp [hx])) hex2
    · have hne : ∀ x ∈ t, x.metadata.source ≠ p := by
        intro x hx he
        exact hex2 ⟨x, hx, he⟩
      rw [gifs_lookup_absent t (gifsStep m r) p hne]
      have hrp : r.metadata.source = p := by
        obtain ⟨x, hx, he⟩ := hex
        rcases List.mem_cons.1 hx with rfl | hx1
        · exact he
        · exact absurd he (hne x hx1)
      obtain ⟨hm, hsz⟩ := hcons r (by simp) hrp
      unfold gifsStep
      rw [if_neg (by rw [hrp]; exact hp), hrp, hm, hsz]
      exact lookup_insertOv_self m p st

theorem gifs_keys :
    ∀ (store : Store) (m : List (String × FileStat)) (p : String),
      p ∈ keysS (store.foldl gifsStep m) ↔
        p ∈ keysS m ∨ (p ≠ "" ∧ ∃ r ∈ store, r.metadata.source = p) := by
  intro store
  induction store with
  | nil => intro m p; simp
  | cons r t ih =>
    intro m p
    simp only [List.foldl_cons]
    rw [ih (gifsStep m r) p]
    unfold gifsStep
    by_cases h : r.metadata.source = ""
    · rw [if_pos h]
      constructor
      · rintro (h1 | h1)
        · exact Or.inl h1
        · exact Or.inr ⟨h1.1, by
            obtain ⟨x, hx, he⟩ := h1.2
            exact ⟨x, by simp [hx], he⟩⟩
      · rintro (h1 | ⟨hp, x, hx, he⟩)
        · exact Or.inl h1
        · rcases List.mem_cons.1 hx with rfl | hx1
          · rw [he] at h; exact absurd h hp
          · exact Or.inr ⟨hp, x, hx1, he⟩
    · rw [if_neg h, keys_insertOv]
      constructor
      · rintro ((h1 | rfl) | h1)
        · exact Or.inl h1
        · exact Or.inr ⟨h, r, by simp⟩
        · exact Or.inr ⟨h1.1, by
            obtain ⟨x, hx, he⟩ := h1.2
            exact ⟨x, by simp [hx], he⟩⟩
      · rintro (h1 | ⟨hp, x, hx, he⟩)
        · exact Or.inl (Or.inl h1)
        · rcases List.mem_cons.1 hx with rfl | hx1
          · exact Or.inl (Or.inr he.symm)
          · exact Or.inr ⟨hp, x, hx1, he⟩

theorem lookupS_mem_pair {α : Type} :
    ∀ {m : List (String × α)} {p : String} {v : α}, lookupS m p = some v → (p, v) ∈ m := by
  intro m
  induction m with
  | nil => intro p v h; cases h
  | cons e t ih =>
    intro p v h
    obtain ⟨k, w⟩ := e
    unfold lookupS at h
    by_cases hk : k = p
    · rw [if_pos hk] at h
      cases h
      subst hk
      simp
    · rw [if_neg hk] at h
      simp [ih h]

theorem lookupS_localState (fs : Filesystem) (p : String) :
    lookupS (localState fs) p = (lookupS fs p).map (fun e => e.1) := by
  induction fs with
  | nil => rfl
  | cons e t ih =>
    obtain ⟨q, st, oc⟩ := e
    unfold localState lookupS
    by_cases h : q = p
    · simp [h, lookupS]
    · simp only [List.map_cons, if_neg h]
      rw [show List.map (fun e => (e.1, e.2.1)) t = localState t from rfl]
      exact ih

/-! ### Deletion lemmas -/

theorem deleteBySource_fst (store : Store) (src : String) :
    (deleteBySource store src).1 = store.filter (fun r => !(r.metadata.source == src)) := by
  unfold deleteBySource
  by_cases h : (store.filter (fun r => r.metadata.source == src)).isEmpty = true
  · rw [if_pos h]
    rw [List.isEmpty_iff] at h
    have hall : ∀ r ∈ store, ¬(r.metadata.source == src) = true := by
      intro r hr hb
      have : r ∈ store.filter (fun r => r.metadata.source == src) := List.mem_filter.2 ⟨hr, hb⟩
      rw [h] at this
      cases this
    exact (List.filter_eq_self.2 (by simpa using hall)).symm
  · rw [if_neg h]

theorem deleteFiles_foldl_fst :
    ∀ (paths : List String) (store : Store) (n : Nat),
      (paths.foldl
        (fun acc p =>
          let d := deleteBySource acc.1 p
          (d.1, acc.2 + d.2))
        (store, n)).1
      = store.filter (fun r => !(decide (r.metadata.source ∈ paths))) := by
  intro paths
  induction paths with
  | nil =>
    intro store n
    simp
  | cons p t ih =>
    intro store n
    simp only [List.foldl_cons]
    rw [ih (deleteBySource store p).1 (n + (deleteBySource store p).2)]
    rw [deleteBySource_fst]
    rw [List.filter_filter]
    refine List.filter_congr ?_
    intro r _
    by_cases h1 : r.metadata.source = p <;> by_cases h2 : r.metadata.source ∈ t <;>
      simp [h1, h2]

theorem deleteFiles_fst (paths : List String) (store : Store) :
    (deleteFiles store paths).1
      = store.filter (fun r => !(decide (r.metadata.source ∈ paths))) := by
  unfold deleteFiles
  exact deleteFiles_foldl_fst paths store 0

/-! ### Clean-run lemmas: all files load, all chunk contents non-blank -/

theorem chunksOfAux_flatten {α : Type} (k : Nat) (hk : 1 ≤ k) :
    ∀ fuel (l : List α), l.length ≤ fuel → (chunksOfAux k fuel l).flatten = l := by
  intro fuel
  induction fuel with
  | zero =>
    intro l h
    have : l = [] := List.length_eq_zero.1 (by omega)
    subst this
    rfl
  | succ f ih =>
    intro l h
    cases l with
    | nil => rfl
    | cons a t =>
      unfold chunksOfAux
      rw [List.flatten_cons]
      rw [ih ((a :: t).drop k) (by simp only [List.length_drop]; simp at h ⊢; omega)]
      exact List.take_append_drop k (a :: t)

theorem chunksOf_flatten {α : Type} (k : Nat) (hk : 1 ≤ k) (l : List α) :
    (chunksOf k l).flatten = l :=
  chunksOfAux_flatten k hk l.length l (le_refl _)

theorem chunksOfAux_mem {α : Type} (k : Nat) (hk : 1 ≤ k) :
    ∀ fuel (l : List α) b, l.length ≤ fuel → b ∈ chunksOfAux k fuel l →
      b ≠ [] ∧ ∀ x ∈ b, x ∈ l := by
  intro fuel
  induction fuel with
  | zero =>
    intro l b _ hb
    cases hb
  | succ f ih =>
    intro l b h hb
    cases l with
    | nil => cases hb
    | cons a t =>
      unfold chunksOfAux at hb
      rcases List.mem_cons.1 hb with rfl | hb1
      · constructor
        · have hlen : ((a :: t).take k).length = min k (t.length + 1) := by
            simp [List.length_take]
          intro hnil
          rw [hnil] at hlen
          simp at hlen
          omega
        · intro x hx
          exact List.mem_of_mem_take hx
      · have hrec := ih ((a :: t).drop k) b
          (by simp only [List.length_drop]; simp at h ⊢; omega) hb1
        exact ⟨hrec.1, fun x hx => List.mem_of_mem_drop (hrec.2 x hx)⟩

theorem embed_foldBatches (embedOne : String → Vec) :
    ∀ (bs : List (List String)) (acc : List Vec),
      (∀ b ∈ bs, b ≠ [] ∧ ∀ t ∈ b, isBlank t = false) →
      bs.foldl (embedFoldStep embedOne) (.ok acc)
        = .ok (acc ++ bs.flatten.map (fun t => embedOne (cleanText t))) := by
  intro bs
  induction bs with
  | nil => intro acc _; simp
  | cons b t ih =>
    intro acc hb
    obtain ⟨hbne, hbnb⟩ := hb b (by simp)
    have hbatch : embedBatch embedOne b = .ok (b.map (fun t => embedOne (cleanText t))) := by
      unfold embedBatch
      have hfil : b.filter (fun t => !(isBlank t)) = b :=
        List.filter_eq_self.2 (by intro a ha; simp [hbnb a ha])
      rw [hfil]
      rw [if_neg (by simpa [List.isEmpty_iff, List.map_eq_nil_iff] using hbne)]
      rw [List.map_map]
      rfl
    simp only [List.foldl_cons]
    have hstep : embedFoldStep embedOne (.ok acc) b
        = .ok (acc ++ b.map (fun t => embedOne (cleanText t))) := by
      unfold embedFoldStep
      rw [hbatch]
    rw [hstep]
    rw [ih (acc ++ b.map fun t => embedOne (cleanText t)) (fun x hx => hb x (by simp [hx]))]
    rw [List.flatten_cons, List.map_append, List.append_assoc]

theorem embedTexts_all_nonblank (embedOne : String → Vec) {texts : List String}
    (hne : texts ≠ []) (hnb : ∀ t ∈ texts, isBlank t = false) :
    embedTexts embedOne texts = .ok (texts.map (fun t => embedOne (cleanText t))) := by
  unfold embedTexts
  rw [if_neg (by simpa [List.isEmpty_iff] using hne)]
  have hb : ∀ b ∈ chunksOf EMBEDDING_BATCH_SIZE texts, b ≠ [] ∧ ∀ t ∈ b, isBlank t = false := by
    intro b hbmem
    have h := chunksOfAux_mem EMBEDDING_BATCH_SIZE (by decide) texts.length texts b
      (le_refl _) hbmem
    exact ⟨h.1, fun t ht => hnb t (h.2 t ht)⟩
  rw [embed_foldBatches embedOne (chunksOf EMBEDDING_BATCH_SIZE texts) [] hb]
  rw [chunksOf_flatten EMBEDDING_BATCH_SIZE (by decide) texts]
  rw [List.nil_append]

theorem zipRecords_recordOf (embedOne : String → Vec) (chunks : List Chunk) :
    zipRecords (chunks.map Chunk.id) (chunks.map Chunk.content)
      ((chunks.map Chunk.content).map (fun t => embedOne (cleanText t)))
      (chunks.map Chunk.metadata)
      = chunks.map (recordOf embedOne) := by
  induction chunks with
  | nil => rfl
  | cons c t ih =>
    simp only [List.map_cons]
    rw [zipRecords, ih]
    rfl

theorem mem_planChunks {fs : Filesystem} {tp : List String} {sid : String} {c : Chunk} :
    c ∈ planChunks fs tp sid ↔ ∃ p ∈ tp, c ∈ chunksFor fs sid p := by
  induction tp with
  | nil =>
    constructor
    · intro h; cases h
    · rintro ⟨p, hp, _⟩; cases hp
  | cons p t ih =>
    rw [planChunks_cons, List.mem_append, ih]
    constructor
    · rintro (h | ⟨q, hq, hc⟩)
      · exact ⟨p, by simp, h⟩
      · exact ⟨q, by simp [hq], hc⟩
    · rintro ⟨q, hq, hc⟩
      rcases List.mem_cons.1 hq with rfl | hq1
      · exact Or.inl hc
      · exact Or.inr ⟨q, hq1, hc⟩

theorem mem_applyUpsert_self {store : Store} {rs : List Record}
    (hnd : (rs.map Record.id).Nodup) {r : Record} (hr : r ∈ rs) :
    r ∈ applyUpsert store rs :=
  mem_of_findById (findById_applyUpsert_nodup store rs hnd hr)

theorem processAndUpsert_clean (embedOne : String → Vec) (fs : Filesystem) (store : Store)
    (tp : List String) (sid : String)
    (hnb : ∀ c ∈ planChunks fs tp sid, isBlank c.content = false) :
    ∃ n, processAndUpsertFiles embedOne false fs store tp sid
      = .ok (applyUpsert store ((planChunks fs tp sid).map (recordOf embedOne)), n) := by
  unfold processAndUpsertFiles
  dsimp only
  by_cases htp : tp.isEmpty = true
  · rw [if_pos htp]
    rw [List.isEmpty_iff] at htp
    subst htp
    exact ⟨0, rfl⟩
  · rw [if_neg htp]
    by_cases hch : (planChunks fs tp sid).isEmpty = true
    · rw [if_pos hch]
      rw [List.isEmpty_iff] at hch
      rw [hch]
      exact ⟨0, rfl⟩
    · rw [if_neg hch]
      rw [List.isEmpty_iff] at hch
      have hcne : (planChunks fs tp sid).map Chunk.content ≠ [] := by
        simpa [List.map_eq_nil_iff] using hch
      have hcnb : ∀ t ∈ (planChunks fs tp sid).map Chunk.content, isBlank t = false := by
        intro t ht
        obtain ⟨c, hc, rfl⟩ := List.mem_map.1 ht
        exact hnb c hc
      rw [embedTexts_all_nonblank embedOne hcne hcnb]
      dsimp only
      have hidne : ¬((planChunks fs tp sid).map Chunk.id).isEmpty = true := by
        simpa [List.isEmpty_iff, List.map_eq_nil_iff] using hch
      unfold upsertBatch
      rw [if_neg hidne]
      unfold collectionUpsert
      rw [if_neg (by simp)]
      rw [if_pos (by simp)]
      rw [zipRecords_recordOf]
      exact ⟨((planChunks fs tp sid).map Chunk.id).length, rfl⟩

theorem syncRun_clean (embedOne : String → Vec) (fs : Filesystem) (store : Store) (sid : String)
    (hnb : ∀ c ∈ planChunks fs
        ((calculateDiff (localState fs) (getIndexedFileState store)).added ++
          (calculateDiff (localState fs) (getIndexedFileState store)).updated) sid,
      isBlank c.content = false) :
    ∃ sum, syncRun embedOne false fs store sid
      = .ok (sum,
        applyUpsert
          (deleteFiles
            (deleteFiles store
              (calculateDiff (localState fs) (getIndexedFileState store)).deleted).1
            (calculateDiff (localState fs) (getIndexedFileState store)).updated).1
          ((planChunks fs
            ((calculateDiff (localState fs) (getIndexedFileState store)).added ++
              (calculateDiff (localState fs) (getIndexedFileState store)).updated) sid).map
            (recordOf embedOne))) := by
  obtain ⟨n, hp⟩ := processAndUpsert_clean embedOne fs
    (deleteFiles
      (deleteFiles store (calculateDiff (localState fs) (getIndexedFileState store)).deleted).1
      (calculateDiff (localState fs) (getIndexedFileState store)).updated).1
    ((calculateDiff (localState fs) (getIndexedFileState store)).added ++
      (calculateDiff (localState fs) (getIndexedFileState store)).updated) sid hnb
  refine ⟨{ filesAdded := (calculateDiff (localState fs) (getIndexedFileState store)).added.length
            filesUpdated := (calculateDiff (localState fs) (getIndexedFileState store)).updated.length
            filesDeleted := (calculateDiff (localState fs) (getIndexedFileState store)).deleted.length
            chunksAdded := n
            chunksDeleted :=
              (deleteFiles store
                (calculateDiff (localState fs) (getIndexedFileState store)).deleted).2 +
              (deleteFiles
                (deleteFiles store
                  (calculateDiff (localState fs) (getIndexedFileState store)).deleted).1
                (calculateDiff (localState fs) (getIndexedFileState store)).updated).2 }, ?_⟩
  unfold syncRun
  dsimp only
  rw [hp]

theorem syncRun_of_empty_diff (embedOne : String → Vec) (storeRaises : Bool) (fs : Filesystem)
    (store : Store) (sid : String)
    (h : calculateDiff (localState fs) (getIndexedFileState store) = ⟨[], [], []⟩) :
    syncRun embedOne storeRaises fs store sid = .ok (⟨0, 0, 0, 0, 0⟩, store) := by
  unfold syncRun
  dsimp only
  rw [h]
  rfl

/-! ### Second-run analysis -/

/-- The diff a sync run computes from a scanned tree and a store. -/
def runDiff (fs : Filesystem) (store : Store) : DiffResult :=
  calculateDiff (localState fs) (getIndexedFileState store)

/-- The run's to-process list (added then updated, `sync_service.py:94`). -/
def runToProcess (fs : Filesystem) (store : Store) : List String :=
  (runDiff fs store).added ++ (runDiff fs store).updated

/-- The records the run upserts. -/
def runNewRecords (embedOne : String → Vec) (fs : Filesystem) (store : Store)
    (sid : String) : List Record :=
  (planChunks fs (runToProcess fs store) sid).map (recordOf embedOne)

/-- The store after the run's two deletion passes. -/
def runStoreAfterDelete (fs : Filesystem) (store : Store) : Store :=
  (deleteFiles (deleteFiles store (runDiff fs store).deleted).1 (runDiff fs store).updated).1

/-- The store a clean run leaves behind. -/
def runStore1 (embedOne : String → Vec) (fs : Filesystem) (store : Store) (sid : String) :
    Store :=
  applyUpsert (runStoreAfterDelete fs store) (runNewRecords embedOne fs store sid)

theorem gifs_keys_iff (store : Store) (p : String) :
    p ∈ keysS (getIndexedFileState store) ↔
      p ≠ "" ∧ ∃ r ∈ store, r.metadata.source = p := by
  have h := gifs_keys store [] p
  unfold getIndexedFileState
  rw [h]
  simp [keysS]

theorem chunksFor_of_entry {fs : Filesystem} {p sid : String} {stat : FileStat}
    {cs : List String} (h : lookupS fs p = some (stat, some cs)) :
    chunksFor fs sid p = processDocument stat p cs sid := by
  unfold chunksFor
  rw [h]

/-- Every record of the post-run store carries the stat the scanner sees for
its (non-empty) source path. -/
theorem store1_sound (embedOne : String → Vec) (fs : Filesystem) (store : Store) (sid : String)
    (H5 : ∀ r1 ∈ store, ∀ r2 ∈ store, r1.metadata.source = r2.metadata.source →
      r1.metadata.fileMtime = r2.metadata.fileMtime ∧
        r1.metadata.fileSize = r2.metadata.fileSize) :
    ∀ r ∈ runStore1 embedOne fs store sid, r.metadata.source ≠ "" →
      lookupS (localState fs) r.metadata.source
        = some ⟨r.metadata.fileMtime, r.metadata.fileSize⟩ := by
  intro r hr hne
  rcases mem_applyUpsert hr with hnew | hold
  · -- freshly upserted record of a processed file
    obtain ⟨c, hc, rfl⟩ := List.mem_map.1 hnew
    obtain ⟨p, _, hcf⟩ := mem_planChunks.1 hc
    unfold chunksFor at hcf
    cases hl : lookupS fs p with
    | none => rw [hl] at hcf; cases hcf
    | some e =>
      obtain ⟨stat, oc⟩ := e
      cases oc with
      | none => rw [hl] at hcf; cases hcf
      | some cs =>
        rw [hl] at hcf
        obtain ⟨hsrc, hm, hsz, _, _⟩ := mem_processDocument hcf
        show lookupS (localState fs) c.metadata.source
          = some ⟨c.metadata.fileMtime, c.metadata.fileSize⟩
        rw [hsrc, hm, hsz, lookupS_localState, hl]
        rfl
  · -- surviving record of an unchanged file
    rw [runStoreAfterDelete, deleteFiles_fst, deleteFiles_fst] at hold
    obtain ⟨hold1, hnu⟩ := List.mem_filter.1 hold
    obtain ⟨hmem, hnd⟩ := List.mem_filter.1 hold1
    have hnotupd : r.metadata.source ∉ (runDiff fs store).updated := by simpa using hnu
    have hnotdel : r.metadata.source ∉ (runDiff fs store).deleted := by simpa using hnd
    have hkD : r.metadata.source ∈ keysS (getIndexedFileState store) :=
      (gifs_keys_iff store r.metadata.source).2 ⟨hne, r, hmem, rfl⟩
    have hkL : r.metadata.source ∈ keysS (localState fs) := by
      by_contra hkl
      exact hnotdel ((mem_deleted_iff _ _ _).2 ⟨hkD, hkl⟩)
    obtain ⟨a, ha⟩ := exists_lookupS_of_mem_keysS hkL
    have hDp : lookupS (getIndexedFileState store) r.metadata.source
        = some ⟨r.metadata.fileMtime, r.metadata.fileSize⟩ := by
      unfold getIndexedFileState
      refine gifs_lookup_consistent store [] r.metadata.source
        ⟨r.metadata.fileMtime, r.metadata.fileSize⟩ hne ?_ ⟨r, hmem, rfl⟩
      intro x hx hxp
      exact H5 x hx r hmem hxp
    have hndiff : ¬statDiffers (localState fs) (getIndexedFileState store)
        r.metadata.source = true := by
      intro hdif
      exact hnotupd ((mem_updated_iff _ _ _).2 ⟨hkL, hkD, hdif⟩)
    rw [statDiffers_iff] at hndiff
    push_neg at hndiff
    have := hndiff a ⟨r.metadata.fileMtime, r.metadata.fileSize⟩ ha hDp
    rw [ha]
    have hm : a.mtime = r.metadata.fileMtime := by tauto
    have hs : a.size = r.metadata.fileSize := by tauto
    cases a
    simp_all

/-- Every scanned path has a record in the post-run store. -/
theorem store1_complete (embedOne : String → Vec) (fs : Filesystem) (store : Store) (sid : String)
    (H2 : ∀ e ∈ fs, ∃ cs, e.2.2 = some cs ∧ cs ≠ [])
    (H6 : ∀ r ∈ store, r.id ∉ (planChunks fs (runToProcess fs store) sid).map Chunk.id)
    (H7 : ((planChunks fs (runToProcess fs store) sid).map Chunk.id).Nodup) :
    ∀ p ∈ keysS (localState fs), ∃ r ∈ runStore1 embedOne fs store sid,
      r.metadata.source = p := by
  intro p hp
  have hnodupNew : ((runNewRecords embedOne fs store sid).map Record.id).Nodup := by
    unfold runNewRecords
    rw [List.map_map]
    exact H7
  by_cases htp : p ∈ runToProcess fs store
  · obtain ⟨a, ha⟩ := exists_lookupS_of_mem_keysS hp
    rw [lookupS_localState] at ha
    cases hl : lookupS fs p with
    | none => rw [hl] at ha; cases ha
    | some e =>
      obtain ⟨stat, oc⟩ := e
      have hepair : (p, stat, oc) ∈ fs := lookupS_mem_pair hl
      obtain ⟨cs, hcs, hcsne⟩ := H2 (p, stat, oc) hepair
      simp only at hcs
      subst hcs
      have hchunks : chunksFor fs sid p = processDocument stat p cs sid :=
        chunksFor_of_entry hl
      obtain ⟨c0, hc0⟩ := List.exists_mem_of_ne_nil cs hcsne
      have hc : (processDocument stat p cs sid) ≠ [] := by
        intro hnil
        have := processDocument_length stat p cs sid
        rw [hnil] at this
        exact hcsne (List.length_eq_zero.1 this.symm)
      obtain ⟨c, hcmem⟩ := List.exists_mem_of_ne_nil _ hc
      have hcp : c ∈ planChunks fs (runToProcess fs store) sid :=
        mem_planChunks.2 ⟨p, htp, by rw [hchunks]; exact hcmem⟩
      refine ⟨recordOf embedOne c, ?_, ?_⟩
      · exact mem_applyUpsert_self hnodupNew (List.mem_map_of_mem (recordOf embedOne) hcp)
      · exact (mem_processDocument hcmem).1
  · have hnad : p ∉ (runDiff fs store).added ∧ p ∉ (runDiff fs store).updated := by
      constructor <;> (intro h; exact htp (by unfold runToProcess; simp [h]))
    have hkD : p ∈ keysS (getIndexedFileState store) := by
      by_contra hkd
      exact hnad.1 ((mem_added_iff _ _ _).2 ⟨hp, hkd⟩)
    obtain ⟨hpne, r, hmem, hsrc⟩ := (gifs_keys_iff store p).1 hkD
    have hnotdel : p ∉ (runDiff fs store).deleted := by
      intro h
      exact ((mem_deleted_iff _ _ _).1 h).2 hp
    refine ⟨r, ?_, hsrc⟩
    unfold runStore1
    refine mem_applyUpsert_of_ne _ ?_ ?_
    · rw [runStoreAfterDelete, deleteFiles_fst, deleteFiles_fst]
      refine List.mem_filter.2 ⟨List.mem_filter.2 ⟨hmem, ?_⟩, ?_⟩
      · simp [hsrc, hnotdel]
      · simp [hsrc, hnad.2]
    · intro x hx he
      obtain ⟨c, hc, rfl⟩ := List.mem_map.1
        (show x ∈ (planChunks fs (runToProcess fs store) sid).map (recordOf embedOne) from hx)
      apply H6 r hmem
      rw [he]
      exact List.mem_map_of_mem Chunk.id hc

theorem keysS_localState_ne (fs : Filesystem) (H0 : ∀ e ∈ fs, e.1 ≠ "") :
    ∀ p ∈ keysS (localState fs), p ≠ "" := by
  intro p hpk
  simp only [keysS, localState, List.map_map] at hpk
  obtain ⟨e, he, rfl⟩ := List.mem_map.1 hpk
  exact H0 e he

/-- After a clean run, re-diffing the unchanged tree against the store the
run left behind produces three empty lists. -/
theorem second_diff_empty (embedOne : String → Vec) (fs : Filesystem) (store : Store)
    (sid : String)
    (H0 : ∀ e ∈ fs, e.1 ≠ "")
    (H2 : ∀ e ∈ fs, ∃ cs, e.2.2 = some cs ∧ cs ≠ [])
    (H5 : ∀ r1 ∈ store, ∀ r2 ∈ store, r1.metadata.source = r2.metadata.source →
      r1.metadata.fileMtime = r2.metadata.fileMtime ∧
        r1.metadata.fileSize = r2.metadata.fileSize)
    (H6 : ∀ r ∈ store, r.id ∉ (planChunks fs (runToProcess fs store) sid).map Chunk.id)
    (H7 : ((planChunks fs (runToProcess fs store) sid).map Chunk.id).Nodup) :
    calculateDiff (localState fs) (getIndexedFileState (runStore1 embedOne fs store sid))
      = ⟨[], [], []⟩ := by
  have hsound := store1_sound embedOne fs store sid H5
  have hcomp := store1_complete embedOne fs store sid H2 H6 H7
  have hpneL := keysS_localState_ne fs H0
  have hkeysub : ∀ p ∈ keysS (getIndexedFileState (runStore1 embedOne fs store sid)),
      p ∈ keysS (localState fs) := by
    intro p hpk
    obtain ⟨hpne, r, hmem, hsrc⟩ := (gifs_keys_iff _ p).1 hpk
    have h1 := hsound r hmem (by rw [hsrc]; exact hpne)
    rw [hsrc] at h1
    exact mem_keysS_of_lookupS h1
  have hkeysup : ∀ p ∈ keysS (localState fs),
      p ∈ keysS (getIndexedFileState (runStore1 embedOne fs store sid)) := by
    intro p hpk
    obtain ⟨r, hr, hsrc⟩ := hcomp p hpk
    exact (gifs_keys_iff _ p).2 ⟨hpneL p hpk, r, hr, hsrc⟩
  have hlookeq : ∀ p ∈ keysS (localState fs),
      lookupS (getIndexedFileState (runStore1 embedOne fs store sid)) p
        = lookupS (localState fs) p := by
    intro p hpk
    obtain ⟨st, hst⟩ := exists_lookupS_of_mem_keysS hpk
    rw [hst]
    unfold getIndexedFileState
    refine gifs_lookup_consistent _ [] p st (hpneL p hpk) ?_ ?_
    · intro x hx hxp
      have h2 := hsound x hx (by rw [hxp]; exact hpneL p hpk)
      rw [hxp, hst] at h2
      injection h2 with h3
      subst h3
      exact ⟨rfl, rfl⟩
    · obtain ⟨r, hr, hsrc⟩ := hcomp p hpk
      exact ⟨r, hr, hsrc⟩
  have hadd : (keysS (localState fs)).filter
      (fun p => !(decide (p ∈ keysS (getIndexedFileState (runStore1 embedOne fs store sid)))))
        = [] :=
    List.filter_eq_nil_iff.2 (by intro p hpk; simp [hkeysup p hpk])
  have hdel : (keysS (getIndexedFileState (runStore1 embedOne fs store sid))).filter
      (fun p => !(decide (p ∈ keysS (localState fs)))) = [] :=
    List.filter_eq_nil_iff.2 (by intro p hpk; simp [hkeysub p hpk])
  have hupd : ((keysS (localState fs)).filter
      (fun p => decide (p ∈ keysS (getIndexedFileState (runStore1 embedOne fs store sid))))).filter
      (statDiffers (localState fs) (getIndexedFileState (runStore1 embedOne fs store sid)))
        = [] := by
    refine List.filter_eq_nil_iff.2 ?_
    intro p hpk
    have hpL : p ∈ keysS (localState fs) := (List.mem_filter.1 hpk).1
    intro hdif
    obtain ⟨a, b, hA, hB, hd⟩ := (statDiffers_iff _ _ _).1 hdif
    rw [hlookeq p hpL, hA] at hB
    injection hB with hB1
    subst hB1
    rcases hd with h | h <;> exact h rfl
  unfold calculateDiff
  dsimp only
  rw [hadd, hdel, hupd]

/-- C2 (amended): re-sync is idempotent for a clean run: if every scanned
path is non-empty, every file loads to at least one chunk, no chunk content
is whitespace-only, the store's records are stat-consistent per source, and
the run's fresh chunk ids neither collide with stored ids nor with each
other (SHA-1 collision freedom at the instance), then the first run
completes, and a second run over the unchanged tree and the resulting store
computes added = updated = deleted = ∅, reports all five summary counts as
0, and leaves the store byte-identical (in particular no delete or upsert
is issued and chunk ids of unchanged files are unchanged).  The claim as
stated — for every filesystem state — is false: a file that yields zero
chunks is never recorded in the store, so the second run reports it added
again (see the counterexample). -/
theorem C2_idempotent_resync (embedOne : String → Vec) (fs : Filesystem) (store : Store)
    (sid : String)
    (H0 : ∀ e ∈ fs, e.1 ≠ "")
    (H2 : ∀ e ∈ fs, ∃ cs, e.2.2 = some cs ∧ cs ≠ [])
    (H3 : ∀ e ∈ fs, ∀ cs, e.2.2 = some cs → ∀ c ∈ cs, isBlank c = false)
    (H5 : ∀ r1 ∈ store, ∀ r2 ∈ store, r1.metadata.source = r2.metadata.source →
      r1.metadata.fileMtime = r2.metadata.fileMtime ∧
        r1.metadata.fileSize = r2.metadata.fileSize)
    (H6 : ∀ r ∈ store, r.id ∉ (planChunks fs (runToProcess fs store) sid).map Chunk.id)
    (H7 : ((planChunks fs (runToProcess fs store) sid).map Chunk.id).Nodup) :
    (syncRun embedOne false fs store sid).isOk = true ∧
    ∀ out, syncRun embedOne false fs store sid = .ok out →
      syncRun embedOne false fs out.2 sid = .ok (⟨0, 0, 0, 0, 0⟩, out.2) := by
  have hnb : ∀ c ∈ planChunks fs (runToProcess fs store) sid, isBlank c.content = false := by
    intro c hc
    obtain ⟨p, _, hcf⟩ := mem_planChunks.1 hc
    unfold chunksFor at hcf
    cases hl : lookupS fs p with
    | none => rw [hl] at hcf; cases hcf
    | some e =>
      obtain ⟨stat, oc⟩ := e
      cases oc with
      | none => rw [hl] at hcf; cases hcf
      | some cs =>
        rw [hl] at hcf
        exact H3 (p, stat, some cs) (lookupS_mem_pair hl) cs rfl c.content
          (mem_processDocument hcf).2.2.2.2
  obtain ⟨sum, hrun⟩ := syncRun_clean embedOne fs store sid hnb
  refine ⟨by rw [hrun]; rfl, ?_⟩
  intro out hout
  rw [hrun] at hout
  cases hout
  exact syncRun_of_empty_diff embedOne false fs _ sid
    (second_diff_empty embedOne fs store sid H0 H2 H5 H6 H7)

/-- C2 counterexample: a file whose loader yields zero chunks (an empty
text file) is "processed" but nothing is ever upserted for it, so the store
stays empty; the run completes reporting files_added = 1.  A second run over
the unchanged tree and the resulting (empty) store is this very same call,
so it again computes added = ["a.txt"] and reports files_added = 1 ≠ 0 —
re-sync is not idempotent for every filesystem state. -/
theorem C2_idempotent_resync_counterexample :
    syncRun wVec false [("a.txt", ⟨1, 1⟩, some [])] [] "system"
        = .ok (⟨1, 0, 0, 0, 0⟩, []) ∧ (1 : Nat) ≠ 0 :=
  ⟨rfl, by decide⟩

set_option maxRecDepth 40000 in
/-- Witness for C2: over a store already holding the one-chunk file's
records, the run reports all-zero counts and leaves the store untouched. -/
theorem C2_idempotent_resync_witness :
    syncRun wVec false [("a.txt", ⟨1, 5⟩, some ["hello"])]
        ((processDocument ⟨1, 5⟩ "a.txt" ["hello"] "system").map (recordOf wVec)) "system"
      = .ok (⟨0, 0, 0, 0, 0⟩,
        (processDocument ⟨1, 5⟩ "a.txt" ["hello"] "system").map (recordOf wVec)) := by
  have h := C2_idempotent_resync wVec [("a.txt", ⟨1, 5⟩, some ["hello"])]
    ((processDocument ⟨1, 5⟩ "a.txt" ["hello"] "system").map (recordOf wVec)) "system"
    (by decide)
    (by
      intro e he
      rw [List.mem_singleton] at he
      subst he
      exact ⟨["hello"], rfl, by decide⟩)
    (by
      intro e he cs hcs c hc
      rw [List.mem_singleton] at he
      subst he
      injection hcs with h1
      subst h1
      rw [List.mem_singleton] at hc
      subst hc
      decide)
    (by decide)
    (by decide)
    (by decide)
  exact h.2 (⟨0, 0, 0, 0, 0⟩,
    (processDocument ⟨1, 5⟩ "a.txt" ["hello"] "system").map (recordOf wVec)) rfl

end RagSync
